import Mathlib

/-!
Verification development for the legal-agreement differentiator repository.

The change-extraction pipeline (`src/document_analysis.py`) is embedded as
executable Lean functions: `extract_text_diffs` splits the two input texts
into lines with Python's `str.splitlines` convention and runs
`difflib.SequenceMatcher(None, a_lines, b_lines).get_opcodes()`, keeping one
record per non-`equal` opcode.  The `SequenceMatcher` embedding below follows
CPython's `difflib.py` specialized to `isjunk=None` (so the junk set `bjunk`
is empty and the junk-extension loops of `find_longest_match` never fire,
while the `autojunk` popularity filter of `__chain_b` is kept).  The
conversational session layer (`backend/main.py`) is embedded as explicit
state passing over an association list mirroring the module-level
`chatbot_sessions` dict and `analysis` string.
-/

/-- Python `str.splitlines` line-boundary characters:
`\n`, `\r` (with `\r\n` as one break), `\v`, `\f`, FS, GS, RS, NEL, LS, PS. -/
def isPyLineBreak (c : Char) : Bool :=
  c = '\n' || c = '\r' || c = '\x0B' || c = '\x0C' ||
  c = '\x1C' || c = '\x1D' || c = '\x1E' || c = '\x85' ||
  c = '\u2028' || c = '\u2029'

/-- Worker for `pySplitlines`: `acc` holds the (reversed) characters of the
current line; a trailing unterminated line is emitted, a trailing break is not. -/
def pySplitlinesAux : List Char → List Char → List String
  | [], [] => []
  | [], acc => [String.mk acc.reverse]
  | '\r' :: '\n' :: rest, acc => String.mk acc.reverse :: pySplitlinesAux rest []
  | c :: rest, acc =>
    if isPyLineBreak c then String.mk acc.reverse :: pySplitlinesAux rest []
    else pySplitlinesAux rest (c :: acc)

/-- Python `s.splitlines()` (no `keepends`). -/
def pySplitlines (s : String) : List String :=
  pySplitlinesAux s.data []

/-- Python slice `l[x:y]` on a list (clamping, empty when `y ≤ x`). -/
def listSlice (l : List String) (x y : Nat) : List String :=
  (l.drop x).take (y - x)

/-- `SequenceMatcher.__chain_b` for `isjunk=None`: `b2j b x` is the ascending
list of positions of `x` in `b`, emptied for "popular" elements when
`autojunk` applies (`len(b) >= 200` and the element fills more than
`len(b) // 100 + 1` positions). -/
def b2j (b : List String) (x : String) : List Nat :=
  let positions := (List.range b.length).filter fun j => decide (b[j]? = some x)
  if b.length ≥ 200 ∧ positions.length > b.length / 100 + 1 then [] else positions

/-- State threaded through `find_longest_match`'s main loop: the `j2len`
dictionary (total function, `0` meaning "absent") and the best match found. -/
structure FLMState where
  j2len : Nat → Nat
  besti : Nat
  bestj : Nat
  bestsize : Nat

/-- Inner loop of `find_longest_match` over `b2j.get(a[i], [])`, with the
previous row `g` fixed: `continue` on `j < blo`, `break` on `j ≥ bhi`,
otherwise `k = newj2len[j] = j2len.get(j-1, 0) + 1` (the `j = 0` guard
mirrors Python's `j2len.get(-1, 0) = 0`), and a strict best-size update to
`(i-k+1, j-k+1, k)`. -/
def flmInner (blo bhi i : Nat) (g : Nat → Nat) :
    List Nat → (Nat → Nat) → Nat → Nat → Nat → FLMState
  | [], new, bi, bj, k => ⟨new, bi, bj, k⟩
  | j :: rest, new, bi, bj, k =>
    if j < blo then flmInner blo bhi i g rest new bi bj k
    else if bhi ≤ j then ⟨new, bi, bj, k⟩
    else
      let kc := (if j = 0 then 0 else g (j - 1)) + 1
      let new' := fun t => if t = j then kc else new t
      if k < kc then flmInner blo bhi i g rest new' (i + 1 - kc) (j + 1 - kc) kc
      else flmInner blo bhi i g rest new' bi bj k

/-- One outer-loop step of `find_longest_match` for line `i`. -/
def flmStep (a b : List String) (blo bhi : Nat) (st : FLMState) (i : Nat) : FLMState :=
  let js := match a[i]? with
    | some x => b2j b x
    | none => []
  flmInner blo bhi i st.j2len js (fun _ => 0) st.besti st.bestj st.bestsize

/-- The full `for i in range(alo, ahi)` loop of `find_longest_match`. -/
def flmMain (a b : List String) (alo ahi blo bhi : Nat) : FLMState :=
  (List.range' alo (ahi - alo)).foldl (flmStep a b blo bhi) ⟨fun _ => 0, alo, blo, 0⟩

/-- The backward extension loop of `find_longest_match` (with `isjunk=None`
the `not isbjunk(...)` test is vacuous): while `besti > alo`, `bestj > blo`
and `a[besti-1] == b[bestj-1]`, grow the match leftward.  Structural
recursion on `besti`, which strictly decreases. -/
def extendBackward (a b : List String) (alo blo : Nat) :
    Nat → Nat → Nat → Nat × Nat × Nat
  | 0, bj, k => (0, bj, k)
  | bi + 1, bj, k =>
    if alo < bi + 1 ∧ blo < bj ∧ a[bi]? = b[bj - 1]? ∧ (a[bi]?).isSome then
      extendBackward a b alo blo bi (bj - 1) (k + 1)
    else (bi + 1, bj, k)

/-- Fueled forward extension loop: while `besti+k < ahi`, `bestj+k < bhi` and
`a[besti+k] == b[bestj+k]`, grow the match rightward.  The guard
`bi + k < ahi` bounds the iteration count by `ahi - (bi + k)`, which is the
fuel `extendForward` supplies, so the fueled loop equals Python's `while`. -/
def extendForwardAux (a b : List String) (ahi bhi bi bj : Nat) : Nat → Nat → Nat
  | 0, k => k
  | gas + 1, k =>
    if bi + k < ahi ∧ bj + k < bhi ∧ a[bi + k]? = b[bj + k]? ∧ (a[bi + k]?).isSome then
      extendForwardAux a b ahi bhi bi bj gas (k + 1)
    else k

/-- Forward extension entry point with exactly enough fuel. -/
def extendForward (a b : List String) (ahi bhi bi bj k : Nat) : Nat :=
  extendForwardAux a b ahi bhi bi bj (ahi - (bi + k)) k

/-- `SequenceMatcher.find_longest_match(alo, ahi, blo, bhi)` for
`isjunk=None`: main loop, then backward extension, then forward extension
(the junk-extension loops never fire because `bjunk` is empty). -/
def find_longest_match (a b : List String) (alo ahi blo bhi : Nat) : Nat × Nat × Nat :=
  let st := flmMain a b alo ahi blo bhi
  let m := extendBackward a b alo blo st.besti st.bestj st.bestsize
  (m.1, m.2.1, extendForward a b ahi bhi m.1 m.2.1 m.2.2)

/-- The recursive block collection of `get_matching_blocks`.  CPython keeps a
work queue and sorts the collected triples at the end; because every interval
is processed with the same `find_longest_match`, the sorted result equals
this direct recursion, which emits left-interval blocks, the found match,
then right-interval blocks (already in ascending order).  Fuel
`(ahi - alo) + (bhi - blo) + 1` at the top call dominates every recursive
interval, so the `0` branch is never reached. -/
def matchingBlocksRec (a b : List String) : Nat → Nat → Nat → Nat → Nat → List (Nat × Nat × Nat)
  | 0, _, _, _, _ => []
  | fuel + 1, alo, ahi, blo, bhi =>
    let m := find_longest_match a b alo ahi blo bhi
    if m.2.2 = 0 then []
    else
      (if alo < m.1 ∧ blo < m.2.1 then matchingBlocksRec a b fuel alo m.1 blo m.2.1 else [])
        ++ [m]
        ++ (if m.1 + m.2.2 < ahi ∧ m.2.1 + m.2.2 < bhi then
              matchingBlocksRec a b fuel (m.1 + m.2.2) ahi (m.2.1 + m.2.2) bhi
            else [])

/-- The adjacent-block merging pass of `get_matching_blocks`: a running block
`(i1, j1, k1)` absorbs the next block when it is contiguous on both sides,
and is emitted (when non-empty) otherwise. -/
def mergeAux : Nat → Nat → Nat → List (Nat × Nat × Nat) → List (Nat × Nat × Nat) →
    List (Nat × Nat × Nat)
  | i1, j1, k1, acc, [] => if k1 ≠ 0 then acc ++ [(i1, j1, k1)] else acc
  | i1, j1, k1, acc, (i2, j2, k2) :: rest =>
    if i1 + k1 = i2 ∧ j1 + k1 = j2 then mergeAux i1 j1 (k1 + k2) acc rest
    else if k1 ≠ 0 then mergeAux i2 j2 k2 (acc ++ [(i1, j1, k1)]) rest
    else mergeAux i2 j2 k2 acc rest

/-- `get_matching_blocks` merging pass, started from the zero block. -/
def mergeAdjacent (blocks : List (Nat × Nat × Nat)) : List (Nat × Nat × Nat) :=
  mergeAux 0 0 0 [] blocks

/-- `SequenceMatcher.get_matching_blocks()`: recursive collection, adjacent
merge, and the `(len(a), len(b), 0)` sentinel. -/
def get_matching_blocks (a b : List String) : List (Nat × Nat × Nat) :=
  mergeAdjacent (matchingBlocksRec a b (a.length + b.length + 1) 0 a.length 0 b.length)
    ++ [(a.length, b.length, 0)]

/-- Opcode tags of `SequenceMatcher.get_opcodes()`. -/
inductive OpTag where
  | replace
  | delete
  | insert
  | equal
deriving DecidableEq, Repr

/-- One `(tag, i1, i2, j1, j2)` opcode. -/
structure Opcode where
  tag : OpTag
  i1 : Nat
  i2 : Nat
  j1 : Nat
  j2 : Nat
deriving DecidableEq, Repr

/-- The opcode-emission loop of `get_opcodes`: for each matching block, first
the gap `(i..ai) × (j..bj)` as `replace`/`delete`/`insert` when non-empty,
then the block itself as `equal` when its size is non-zero. -/
def opcodesAux : Nat → Nat → List (Nat × Nat × Nat) → List Opcode
  | _, _, [] => []
  | i, j, (ai, bj, sz) :: rest =>
    (if i < ai ∧ j < bj then [⟨.replace, i, ai, j, bj⟩]
     else if i < ai then [⟨.delete, i, ai, j, bj⟩]
     else if j < bj then [⟨.insert, i, ai, j, bj⟩]
     else [])
      ++ (if sz ≠ 0 then [⟨.equal, ai, ai + sz, bj, bj + sz⟩] else [])
      ++ opcodesAux (ai + sz) (bj + sz) rest

/-- `SequenceMatcher.get_opcodes()`. -/
def get_opcodes (a b : List String) : List Opcode :=
  opcodesAux 0 0 (get_matching_blocks a b)

/-- The `'replace' | 'delete' | 'insert'` tag stored in a change record
(`'equal'` opcodes are skipped by `extract_text_diffs`). -/
inductive RecTag where
  | replace
  | delete
  | insert
deriving DecidableEq, Repr

/-- One change record of `extract_text_diffs`: tag, the two line slices, and
the 1-indexed inclusive display ranges `(i1+1, i2)` / `(j1+1, j2)`. -/
structure DiffRecord where
  type : RecTag
  original_lines : List String
  new_lines : List String
  original_line_numbers : Nat × Nat
  new_line_numbers : Nat × Nat
deriving DecidableEq, Repr

/-- The record built from one opcode (`none` for `equal`, which the loop in
`extract_text_diffs` skips). -/
def opcodeRecord (a b : List String) (op : Opcode) : Option DiffRecord :=
  match op.tag with
  | .equal => none
  | .replace => some ⟨.replace, listSlice a op.i1 op.i2, listSlice b op.j1 op.j2,
      (op.i1 + 1, op.i2), (op.j1 + 1, op.j2)⟩
  | .delete => some ⟨.delete, listSlice a op.i1 op.i2, listSlice b op.j1 op.j2,
      (op.i1 + 1, op.i2), (op.j1 + 1, op.j2)⟩
  | .insert => some ⟨.insert, listSlice a op.i1 op.i2, listSlice b op.j1 op.j2,
      (op.i1 + 1, op.i2), (op.j1 + 1, op.j2)⟩

/-- `DocumentAnalysis.extract_text_diffs(a, b)`: split both texts into lines,
run `SequenceMatcher(None, a_lines, b_lines).get_opcodes()`, and keep one
record per non-`equal` opcode, in opcode order.  (The `try/except` wrapper in
the source is dead for string inputs: none of these operations raise.) -/
def extract_text_diffs (aText bText : String) : List DiffRecord :=
  let aLines := pySplitlines aText
  let bLines := pySplitlines bText
  (get_opcodes aLines bLines).filterMap (opcodeRecord aLines bLines)

/-- Python `' '.join(lines)`. -/
def joinSpace (lines : List String) : String :=
  String.intercalate " " lines

/-- The paragraph `format_text_differences` emits for one record. -/
def format_change (c : DiffRecord) : String :=
  match c.type with
  | .replace =>
    "Lines " ++ toString c.original_line_numbers.1 ++ "–" ++
      toString c.original_line_numbers.2 ++ " were modified:\n" ++
      "Before: " ++ joinSpace c.original_lines ++ "\n" ++
      "After: " ++ joinSpace c.new_lines ++ "\n"
  | .delete =>
    "Lines " ++ toString c.original_line_numbers.1 ++ "–" ++
      toString c.original_line_numbers.2 ++ " were deleted:\n" ++
      "Content: " ++ joinSpace c.original_lines ++ "\n"
  | .insert =>
    "Lines " ++ toString c.new_line_numbers.1 ++ "–" ++
      toString c.new_line_numbers.2 ++ " were added:\n" ++
      "Content: " ++ joinSpace c.new_lines ++ "\n"

/-- The `formatted` list built by `format_text_differences`: one paragraph
per record (each record's tag is one of the three handled cases). -/
def formatted_paragraphs (diffs : List DiffRecord) : List String :=
  diffs.map format_change

/-- `DocumentAnalysis.format_text_differences(diffs)`:
`"\n".join(formatted)`. -/
def format_text_differences (diffs : List DiffRecord) : String :=
  String.intercalate "\n" (formatted_paragraphs diffs)


/-- `prompt_templates/templates.py::default_chat_template(analysis)`: the
default system prompt, with the analysis interpolated as the context. -/
def default_chat_template (analysis : String) : String :=
  "\n    Act as a legal document analysis assistant. If the question is not related to the context, print \"Unrelated question\" and nothing else. Structure your response in markdown, using bullet points or headings if appropriate. Ensure that if there is no relevant information, you provide \"Unrelated question\" and nothing else at all. \n    Answer the question with a clear and concise response.\n    Strictly ensure any conversation, and any output is about law and legalities.\n    For any question not related to the context, print \"Unrelated question\"  and nothing else.\n    Only answer questions about the law.\n    Strictly refer to the context, and answer queries accordingly.\n    If the user is not asking a question, but telling you their opinion or is giving feedback, acknowledge it, and prompt them to ask their next question. \n    Answer only questions relevant to the context.\n\n    Context:\n    "
    ++ analysis ++ "\n    "

/-- Role of one conversation turn. -/
inductive ConversationRole where
  | user
  | assistant
deriving DecidableEq, Repr

/-- One `{role, content}` turn of a session's history. -/
structure ConversationTurn where
  role : ConversationRole
  content : String
deriving DecidableEq, Repr

/-- Modelled from the spec: `src/chatbot.py` (the `ChatBot` class) is not in
the repository snapshot, only its callers in `backend/main.py` are.  Per spec
§3/§4.4 a `ConversationSession` holds an immutable-by-turns
`grounding_context`, an `active_system_prompt`, and an append-only ordered
`history`. -/
structure ChatBot where
  grounding_context : String
  active_system_prompt : String
  history : List ConversationTurn
deriving DecidableEq, Repr

/-- Modelled from the spec: session creation (`ChatBot(system_prompt=...)` in
`backend/main.py`) establishes the grounding context once and starts with an
empty history (§4.4 `create`). -/
def ChatBot.create (grounding system_prompt : String) : ChatBot :=
  ⟨grounding, system_prompt, []⟩

/-- Modelled from the spec: `set_system_prompt` is a full overwrite of
`active_system_prompt` and does not touch `history` (§4.4). -/
def ChatBot.set_system_prompt (bot : ChatBot) (p : String) : ChatBot :=
  { bot with active_system_prompt := p }

/-- Modelled from the spec: `clear_conversation` resets `history` to empty and
leaves `grounding_context` and `active_system_prompt` alone (§4.4 `clear`). -/
def ChatBot.clear_conversation (bot : ChatBot) : ChatBot :=
  { bot with history := [] }

/-- The external conversational capability of §6: system prompt and ordered
turns in, assistant text out, fallible. -/
abbrev ChatService := String → List ConversationTurn → Except String String

/-- Modelled from the spec: `submit_turn` (§4.4, called `chat` on the missing
`ChatBot`): append the User turn, invoke the external capability with the
active system prompt and the full history including that turn, and append
the Assistant turn only on a non-empty successful reply; a transport error or
an empty reply is a ChatFailure that leaves just the User turn appended. -/
def ChatBot.chat (bot : ChatBot) (message : String) (svc : ChatService) :
    Except String String × ChatBot :=
  let bot1 := { bot with history := bot.history ++ [⟨.user, message⟩] }
  match svc bot.active_system_prompt bot1.history with
  | .error e => (.error e, bot1)
  | .ok resp =>
    if resp = "" then (.error "empty response from conversational capability", bot1)
    else (.ok resp, { bot1 with history := bot1.history ++ [⟨.assistant, resp⟩] })

/-- `models/models.py::ChatRequest`. -/
structure ChatRequest where
  message : String
  session_id : String
  system_prompt : Option String := none
deriving DecidableEq, Repr

/-- The module-level mutable state of `backend/main.py`:
`chatbot_sessions = {}` (dict as association list) and `analysis = ""`. -/
structure AppState where
  analysis : String
  chatbot_sessions : List (String × ChatBot)
deriving DecidableEq, Repr

/-- `backend/main.py` lines 25-26: state at process start. -/
def initial_state : AppState :=
  ⟨"", []⟩

/-- Dict lookup `chatbot_sessions[sid]` / `sid in chatbot_sessions`. -/
def lookupSession (sessions : List (String × ChatBot)) (sid : String) : Option ChatBot :=
  (sessions.find? fun p => p.1 = sid).map fun p => p.2

/-- Dict store `chatbot_sessions[sid] = bot` (replace the existing binding in
place, else append; dict keys are unique, so replacing the first binding is
the dict semantics). -/
def setSession : List (String × ChatBot) → String → ChatBot → List (String × ChatBot)
  | [], sid, bot => [(sid, bot)]
  | p :: rest, sid, bot =>
    if p.1 = sid then (sid, bot) :: rest else p :: setSession rest sid bot

/-- Python truthiness of `request.system_prompt or default`: an absent or
empty override falls back to the default. -/
def requestedPrompt (req : ChatRequest) (dflt : String) : String :=
  match req.system_prompt with
  | some p => if p = "" then dflt else p
  | none => dflt

/-- The tail of the `/chat/` handler shared by both branches (`main.py` lines
116-127): overwrite the active prompt when the request carries a truthy
`system_prompt`, run `chatbot.chat` (the object in the dict is mutated in
place, so the session map keeps the post-turn bot even when the call errors),
and reject an empty response with HTTP 500. -/
def chatCore (st : AppState) (req : ChatRequest) (svc : ChatService) (bot : ChatBot) :
    Except String String × AppState :=
  let bot1 := match req.system_prompt with
    | some p => if p = "" then bot else bot.set_system_prompt p
    | none => bot
  let r := bot1.chat req.message svc
  let st2 := { st with chatbot_sessions := setSession st.chatbot_sessions req.session_id r.2 }
  match r.1 with
  | .ok resp => if resp = "" then (.error "Empty response from chatbot", st2) else (.ok resp, st2)
  | .error e => (.error e, st2)

/-- `backend/main.py::chat_with_bot` (lines 102-130): lazily create the
session from the module-level `analysis` when the identifier is unseen (the
`ValueError` branch fires only on an empty prompt), then delegate to the
shared tail.  Returns the response-or-error together with the resulting
module state. -/
def chat_with_bot (st : AppState) (req : ChatRequest) (svc : ChatService) :
    Except String String × AppState :=
  match lookupSession st.chatbot_sessions req.session_id with
  | some bot => chatCore st req svc bot
  | none =>
    let sp := requestedPrompt req (default_chat_template st.analysis)
    if sp = "" then (.error "No system prompt found in chat with bot route", st)
    else
      let bot := ChatBot.create st.analysis sp
      chatCore { st with
        chatbot_sessions := setSession st.chatbot_sessions req.session_id bot } req svc bot

/-- `backend/main.py::clear_chat_session` (lines 132-139): clear the history
of an existing session, `none` (HTTP 404, Session not found) otherwise. -/
def clear_chat_session (st : AppState) (sid : String) : Option AppState :=
  match lookupSession st.chatbot_sessions sid with
  | some bot =>
    some { st with chatbot_sessions := setSession st.chatbot_sessions sid bot.clear_conversation }
  | none => none

/-- `backend/main.py::analyze_documents` (lines 36-89): the handler binds
`analysis = document_analyzer.run()` as a function-local name — there is no
`global analysis` declaration in this handler, unlike `analyze-and-chat` — so
the module-level `analysis` and `chatbot_sessions` are untouched; only the
response carries the fresh analysis.  `runResult` stands for the external
`DocumentAnalysis.run()` result. -/
def analyze_documents (st : AppState) (runResult : String) : AppState × String :=
  (st, runResult)

/-- `backend/main.py::analyze_documents_and_start_chat` (lines 150-207): the
handler declares `global analysis`, stores the fresh analysis, and
unconditionally does `chatbot_sessions[session_id] = ChatBot(system_prompt=
default_chat_template(analysis))`, replacing any stored session for that
identifier; the `ValueError` branch fires only on an empty template. -/
def analyze_and_chat (st : AppState) (sid : String) (runResult : String) :
    Except String AppState :=
  let template := default_chat_template runResult
  if template = "" then .error "No template set in analyze documents and start chat route"
  else .ok { analysis := runResult,
             chatbot_sessions :=
               setSession st.chatbot_sessions sid (ChatBot.create runResult template) }

/-- Unwrap a handler state result, defaulting to the initial state (used only
to write closed concrete statements; the error branch is never taken there). -/
def okState : Except String AppState → AppState
  | .ok st => st
  | .error _ => initial_state

/-- `DocumentAnalysis.analyze_document_changes` (lines 113-140) with the
external POST to the summarization service abstracted by its parsed JSON
`response` field: `response.json()['response']` raises a `KeyError` when the
field is missing and otherwise returns the field verbatim — in particular an
empty string is returned as a successful (empty) narration, with no check. -/
def analyze_document_changes (serviceResponse : Option String) : Except String String :=
  match serviceResponse with
  | none => .error "KeyError: response"
  | some s => .ok s

/-! ### Predicates and measures used by the diff-pipeline proofs -/

/-- The two line lists agree (and are defined) at positions `i` and `j`. -/
def MatchAt (a b : List String) (i j : Nat) : Prop :=
  a[i]? = b[j]? ∧ (a[i]?).isSome

/-- `k` consecutive agreeing positions starting at `bi` / `bj`. -/
def MatchRun (a b : List String) (bi bj k : Nat) : Prop :=
  ∀ s, s < k → MatchAt a b (bi + s) (bj + s)

/-- Block `x` ends (in both coordinates) no later than block `y` starts. -/
def SepBlocks (x y : Nat × Nat × Nat) : Prop :=
  x.1 + x.2.2 ≤ y.1 ∧ x.2.1 + x.2.2 ≤ y.2.1

/-- The blocks advance monotonically from running position `(i, j)`. -/
def chainBlocks : Nat → Nat → List (Nat × Nat × Nat) → Prop
  | _, _, [] => True
  | i, j, (ai, bj, sz) :: rest => i ≤ ai ∧ j ≤ bj ∧ chainBlocks (ai + sz) (bj + sz) rest

/-- Final `a`-side running position after consuming the blocks. -/
def endA : Nat → List (Nat × Nat × Nat) → Nat
  | i, [] => i
  | _, (ai, _, sz) :: rest => endA (ai + sz) rest

/-- Final `b`-side running position after consuming the blocks. -/
def endB : Nat → List (Nat × Nat × Nat) → Nat
  | j, [] => j
  | _, (_, bj, sz) :: rest => endB (bj + sz) rest

/-- Invariant on a `j2len` row after the main loop of `find_longest_match`
has processed indices `[alo, i)`: a non-zero cell at `j` records a match
chain of that length ending at `(i - 1, j)`, inside the window. -/
def RowInv (a b : List String) (alo blo bhi i : Nat) (g : Nat → Nat) : Prop :=
  ∀ j, g j ≠ 0 →
    alo < i ∧ g j ≤ i - alo ∧ blo + g j ≤ j + 1 ∧ j < bhi ∧
    ∀ s, s < g j → MatchAt a b (i - 1 - s) (j - s)

/-- Invariant on the best match after the main loop has processed `[alo, i)`:
it lies in the window, is a real run, and is the sentinel `(alo, blo, 0)`
while nothing has been found. -/
def BestInv (a b : List String) (alo blo bhi i : Nat) (st : FLMState) : Prop :=
  alo ≤ st.besti ∧ blo ≤ st.bestj ∧
  (st.bestsize = 0 → st.besti = alo ∧ st.bestj = blo) ∧
  (st.bestsize ≠ 0 → st.besti + st.bestsize ≤ i ∧ st.bestj + st.bestsize ≤ bhi) ∧
  MatchRun a b st.besti st.bestj st.bestsize

/-- Position `j` of `l` carries an element that survives the `autojunk`
popularity filter (so `j` is listed in `b2j l` for its own element). -/
def keepAtB (l : List String) (j : Nat) : Bool :=
  match l[j]? with
  | some x => decide (j ∈ b2j l x)
  | none => false

/-- Length of the maximal run of kept positions of `l` ending at `i` — the
value the `j2len` diagonal cell takes when `SequenceMatcher` compares `l`
with itself. -/
def dChain (l : List String) : Nat → Nat
  | 0 => if keepAtB l 0 then 1 else 0
  | i + 1 => if keepAtB l (i + 1) then dChain l i + 1 else 0

/-- Length of the maximal chain of equal kept positions ending at `(i, t)`
when `SequenceMatcher` compares `l` with itself — an upper bound for the
`j2len` cell at `t` after step `i`. -/
def cChain (l : List String) : Nat → Nat → Nat
  | 0, t => if decide (l[0]? = l[t]?) && (l[0]?).isSome && keepAtB l t then 1 else 0
  | i + 1, 0 => if decide (l[i + 1]? = l[0]?) && (l[i + 1]?).isSome && keepAtB l 0 then 1 else 0
  | i + 1, t + 1 =>
    if decide (l[i + 1]? = l[t + 1]?) && (l[i + 1]?).isSome && keepAtB l (t + 1) then
      cChain l i t + 1
    else 0

/-! ### Helper lemmas for the session layer and the formatter -/

/-- The default chat template is never the empty (falsy) string, whatever the
analysis, so the `ValueError` branches of both chat routes are dead. -/
theorem default_chat_template_ne_empty (analysis : String) :
    default_chat_template analysis ≠ "" := by
  intro h
  have hlen := congrArg String.length h
  simp only [default_chat_template, String.length_append] at hlen
  have h1 : ("\n    " : String).length = 5 := rfl
  have h2 : ("" : String).length = 0 := rfl
  omega

/-- Unfolding equation for `ChatBot.chat` with the let and the appended turn
flattened. -/
theorem ChatBot.chat_eq (bot : ChatBot) (msg : String) (svc : ChatService) :
    bot.chat msg svc =
      match svc bot.active_system_prompt (bot.history ++ [⟨.user, msg⟩]) with
      | .error e => (.error e, { bot with history := bot.history ++ [⟨.user, msg⟩] })
      | .ok resp =>
        if resp = "" then
          (.error "empty response from conversational capability",
            { bot with history := bot.history ++ [⟨.user, msg⟩] })
        else
          (.ok resp,
            { bot with history := bot.history ++ [⟨.user, msg⟩, ⟨.assistant, resp⟩] }) := by
  unfold ChatBot.chat
  cases h : svc bot.active_system_prompt (bot.history ++ [⟨.user, msg⟩]) with
  | error e => simp [h]
  | ok resp => by_cases hr : resp = "" <;> simp [h, hr]

/-- `ChatBot.chat` never touches the grounding context or the active prompt. -/
theorem ChatBot.chat_preserves_context (bot : ChatBot) (msg : String) (svc : ChatService) :
    ((bot.chat msg svc).2).grounding_context = bot.grounding_context ∧
    ((bot.chat msg svc).2).active_system_prompt = bot.active_system_prompt := by
  rw [ChatBot.chat_eq]
  cases h : svc bot.active_system_prompt (bot.history ++ [⟨.user, msg⟩]) with
  | error e => exact ⟨rfl, rfl⟩
  | ok resp =>
    by_cases hr : resp = "" <;> simp [hr]

/-- Writing and then rewriting the same key collapses to the second write. -/
theorem setSession_setSession (ss : List (String × ChatBot)) (sid : String) (b1 b2 : ChatBot) :
    setSession (setSession ss sid b1) sid b2 = setSession ss sid b2 := by
  induction ss with
  | nil => simp [setSession]
  | cons p rest ih =>
    by_cases h : p.1 = sid
    · simp [setSession, h]
    · simp [setSession, h, ih]

/-- `String.intercalate.go` only ever grows its accumulator. -/
theorem intercalate_go_length (sep : String) (as : List String) (acc : String) :
    acc.length ≤ (String.intercalate.go acc sep as).length := by
  induction as generalizing acc with
  | nil => exact Nat.le_refl _
  | cons a as ih =>
    calc acc.length ≤ (acc ++ sep ++ a).length := by
          simp [String.length_append]; omega
      _ ≤ _ := ih _

/-- Every paragraph the formatter emits is non-empty (it starts with
`"Lines "`). -/
theorem format_change_length_pos (c : DiffRecord) : 0 < (format_change c).length := by
  have h6 : ("Lines " : String).length = 6 := rfl
  cases h : c.type <;> simp only [format_change, h, String.length_append] <;> omega

/-! ### Claim theorems for the session layer, the narrator and the formatter -/

/-- C2: `submit_turn` (the spec-modelled `ChatBot.chat`) never shrinks the
history; a failed turn (transport error or empty reply, both signalled as
ChatFailure) appends exactly the User turn, a successful turn appends exactly
the User and Assistant turns. -/
theorem c2_submit_turn_history (bot : ChatBot) (msg : String) (svc : ChatService) :
    bot.history.length ≤ ((bot.chat msg svc).2).history.length ∧
    ((bot.chat msg svc).1.isOk = false →
      ((bot.chat msg svc).2).history = bot.history ++ [⟨.user, msg⟩] ∧
      ((bot.chat msg svc).2).history.length = bot.history.length + 1) ∧
    (∀ resp, (bot.chat msg svc).1 = .ok resp →
      ((bot.chat msg svc).2).history = bot.history ++ [⟨.user, msg⟩, ⟨.assistant, resp⟩] ∧
      ((bot.chat msg svc).2).history.length = bot.history.length + 2) := by
  rw [ChatBot.chat_eq]
  cases h : svc bot.active_system_prompt (bot.history ++ [⟨.user, msg⟩]) with
  | error e =>
    refine ⟨by simp, fun _ => ⟨by simp, by simp⟩, fun resp hr => by simp at hr⟩
  | ok resp =>
    by_cases he : resp = ""
    · refine ⟨by simp [he], fun _ => ⟨by simp [he], by simp [he]⟩,
        fun r hr => by simp [he] at hr⟩
    · refine ⟨by simp [he], fun hko => by simp [he, Except.isOk, Except.toBool] at hko,
        fun r hr => ?_⟩
      simp [he] at hr
      subst hr
      simp [he]

/-- C2 witness: a successful concrete turn appends the User and Assistant
turns in order. -/
theorem c2_submit_turn_history_witness :
    ((ChatBot.create "ctx" "sys").chat "q" (fun _ _ => .ok "A")).2.history
      = [⟨.user, "q"⟩, ⟨.assistant, "A"⟩] := by
  have h := (c2_submit_turn_history (ChatBot.create "ctx" "sys") "q"
    (fun _ _ => .ok "A")).2.2 "A" rfl
  simpa [ChatBot.create] using h.1

/-- C3 counterexample: an empty `response` field from the summarization
service is returned as a successful empty narration, not signalled as a
failure — the claim that an empty response is itself a NarrationFailure is
false on this code (`return response.json()['response']` is unchecked). -/
theorem c3_counterexample : analyze_document_changes (some "") = .ok "" := rfl

/-- C3 amended: only a missing `response` field fails (as a raw `KeyError`,
not a classified NarrationFailure); any present string — the empty string
included — is returned verbatim as success. -/
theorem c3_amended_narration :
    (analyze_document_changes none).isOk = false ∧
    (∀ s, analyze_document_changes (some s) = .ok s) :=
  ⟨rfl, fun _ => rfl⟩

/-- C7: the formatter emits exactly one paragraph per record, and the joined
brief is empty exactly when the record sequence is. -/
theorem c7_formatter_paragraph_count (diffs : List DiffRecord) :
    (formatted_paragraphs diffs).length = diffs.length ∧
    (format_text_differences diffs = "" ↔ diffs = []) := by
  refine ⟨List.length_map _ _, ⟨fun h => ?_, fun h => by subst h; rfl⟩⟩
  cases diffs with
  | nil => rfl
  | cons d ds =>
    exfalso
    have hlen := congrArg String.length h
    have hgo : (format_change d).length ≤
        (String.intercalate "\n" (formatted_paragraphs (d :: ds))).length := by
      simpa [formatted_paragraphs, String.intercalate] using
        intercalate_go_length "\n" (ds.map format_change) (format_change d)
    have hpos := format_change_length_pos d
    rw [format_text_differences] at hlen
    simp only [hlen] at hgo
    simp at hgo
    omega

/-- C8: the change extractor is a pure function of its two inputs — two runs
on the same pair of texts produce the same record sequence. -/
theorem c8_extractor_deterministic (a b : String) (r1 r2 : List DiffRecord)
    (h1 : r1 = extract_text_diffs a b) (h2 : r2 = extract_text_diffs a b) :
    r1 = r2 :=
  h1.trans h2.symm

/-- C8 witness: two concrete runs agree. -/
theorem c8_extractor_deterministic_witness :
    extract_text_diffs "A\nB" "A\nC" = extract_text_diffs "A\nB" "A\nC" :=
  c8_extractor_deterministic "A\nB" "A\nC" _ _ rfl rfl

/-- C9: clearing an existing session empties its history and leaves its
grounding context and active system prompt as they were; clearing an unknown
identifier is a NotFound (`none`, HTTP 404), not a success and not a
creation. -/
theorem c9_clear_session (st : AppState) (sid : String) :
    (∀ bot, lookupSession st.chatbot_sessions sid = some bot →
      clear_chat_session st sid =
        some { st with
          chatbot_sessions := setSession st.chatbot_sessions sid bot.clear_conversation } ∧
      bot.clear_conversation.history = [] ∧
      bot.clear_conversation.grounding_context = bot.grounding_context ∧
      bot.clear_conversation.active_system_prompt = bot.active_system_prompt) ∧
    (lookupSession st.chatbot_sessions sid = none → clear_chat_session st sid = none) := by
  constructor
  · intro bot hb
    refine ⟨?_, rfl, rfl, rfl⟩
    unfold clear_chat_session
    rw [hb]
  · intro hn
    unfold clear_chat_session
    rw [hn]

/-- C9 witness: clearing a concrete one-session state keeps context and
prompt; clearing a missing identifier is NotFound. -/
theorem c9_clear_session_witness :
    clear_chat_session ⟨"", [("s", ⟨"ctx", "sys", [⟨.user, "q"⟩]⟩)]⟩ "s" =
      some ⟨"", [("s", ⟨"ctx", "sys", []⟩)]⟩ ∧
    clear_chat_session ⟨"", []⟩ "missing" = none := by
  constructor
  · have h := (c9_clear_session ⟨"", [("s", ⟨"ctx", "sys", [⟨.user, "q"⟩]⟩)]⟩ "s").1
      ⟨"ctx", "sys", [⟨.user, "q"⟩]⟩ rfl
    exact h.1.trans (by rfl)
  · exact (c9_clear_session ⟨"", []⟩ "missing").2 rfl

/-- C1 counterexample: a second analyze-and-chat request for the same
identifier replaces the stored session (the handler does
`chatbot_sessions[session_id] = ChatBot(...)` unconditionally), so a later
creation attempt does not return the first session unchanged. -/
theorem c1_counterexample :
    lookupSession (okState (analyze_and_chat
        (okState (analyze_and_chat initial_state "s" "A1")) "s" "A2")).chatbot_sessions "s" ≠
      lookupSession (okState (analyze_and_chat initial_state "s" "A1")).chatbot_sessions "s" := by
  decide

/-- C1 amended: lazy creation in the `/chat/` route is first-write-wins — a
chat request for a known identifier reuses the stored session (when it
carries no `system_prompt` override, only chat turns are appended and the
grounding context and prompt stay put) — but `/analyze-and-chat/`
unconditionally replaces any stored session for its identifier with one
seeded from the fresh analysis (last analysis wins). -/
theorem c1_session_policy_amended :
    (∀ (st : AppState) (req : ChatRequest) (svc : ChatService) (bot : ChatBot),
      req.system_prompt = none →
      lookupSession st.chatbot_sessions req.session_id = some bot →
      (chat_with_bot st req svc).2.analysis = st.analysis ∧
      (chat_with_bot st req svc).2.chatbot_sessions =
        setSession st.chatbot_sessions req.session_id (bot.chat req.message svc).2 ∧
      ((bot.chat req.message svc).2).grounding_context = bot.grounding_context ∧
      ((bot.chat req.message svc).2).active_system_prompt = bot.active_system_prompt) ∧
    (∀ (st : AppState) (sid runResult : String),
      analyze_and_chat st sid runResult =
        .ok { analysis := runResult,
              chatbot_sessions := setSession st.chatbot_sessions sid
                (ChatBot.create runResult (default_chat_template runResult)) }) := by
  constructor
  · intro st req svc bot hnone hfound
    have hcw : chat_with_bot st req svc = chatCore st req svc bot := by
      unfold chat_with_bot
      rw [hfound]
    have hcore : chatCore st req svc bot =
        (match (bot.chat req.message svc).1 with
          | .ok resp =>
            if resp = "" then (Except.error "Empty response from chatbot",
              { st with chatbot_sessions :=
                  setSession st.chatbot_sessions req.session_id (bot.chat req.message svc).2 })
            else (.ok resp,
              { st with chatbot_sessions :=
                  setSession st.chatbot_sessions req.session_id (bot.chat req.message svc).2 })
          | .error e => (.error e,
              { st with chatbot_sessions :=
                  setSession st.chatbot_sessions req.session_id (bot.chat req.message svc).2 })) := by
      unfold chatCore
      rw [hnone]
    rw [hcw, hcore]
    refine ⟨?_, ?_, ChatBot.chat_preserves_context bot req.message svc⟩ <;>
      cases h : (bot.chat req.message svc).1 with
    | ok resp => by_cases hr : resp = "" <;> simp [hr]
    | error e => simp
  · intro st sid runResult
    unfold analyze_and_chat
    rw [if_neg (default_chat_template_ne_empty runResult)]

/-- C1 amended witness: at a concrete one-session state, a chat request
without an override keeps the stored session (modulo its own turns), and a
concrete analyze-and-chat call replaces the stored session. -/
theorem c1_session_policy_amended_witness :
    (chat_with_bot ⟨"", [("s", ChatBot.create "ctx" "sys")]⟩ ⟨"q", "s", none⟩
        (fun _ _ => .ok "A")).2.chatbot_sessions =
      [("s", ⟨"ctx", "sys", [⟨.user, "q"⟩, ⟨.assistant, "A"⟩]⟩)] ∧
    analyze_and_chat ⟨"", [("s", ChatBot.create "ctx" "sys")]⟩ "s" "A2" =
      .ok ⟨"A2", [("s", ChatBot.create "A2" (default_chat_template "A2"))]⟩ := by
  constructor
  · have h := (c1_session_policy_amended.1 ⟨"", [("s", ChatBot.create "ctx" "sys")]⟩
      ⟨"q", "s", none⟩ (fun _ _ => .ok "A") (ChatBot.create "ctx" "sys") rfl rfl).2.1
    rw [h]
    rfl
  · exact (c1_session_policy_amended.2 ⟨"", [("s", ChatBot.create "ctx" "sys")]⟩ "s" "A2").trans
      (by rfl)

/-- C10: the plain analyze-documents route never updates the module-level
state — in particular the process-wide `analysis` string (empty at process
start) keeps its prior value, because the handler's `analysis = ...` binds a
local name — so a session created lazily by a later chat request is grounded
in the prior module-level value, not in the analysis just produced. -/
theorem c10_analyze_documents_keeps_module_analysis :
    initial_state.analysis = "" ∧
    (∀ (st : AppState) (runResult : String),
      (analyze_documents st runResult).1 = st ∧
      (analyze_documents st runResult).2 = runResult) ∧
    (∀ (st : AppState) (runResult : String) (req : ChatRequest) (svc : ChatService),
      req.system_prompt = none →
      lookupSession st.chatbot_sessions req.session_id = none →
      (chat_with_bot (analyze_documents st runResult).1 req svc).2.chatbot_sessions =
        setSession st.chatbot_sessions req.session_id
          ((ChatBot.create st.analysis (default_chat_template st.analysis)).chat
            req.message svc).2) := by
  refine ⟨rfl, fun st r => ⟨rfl, rfl⟩, fun st r req svc hnone hmiss => ?_⟩
  unfold chat_with_bot analyze_documents
  simp only []
  rw [hmiss]
  simp only [requestedPrompt, hnone]
  rw [if_neg (default_chat_template_ne_empty st.analysis)]
  unfold chatCore
  rw [hnone]
  simp only []
  cases h : ((ChatBot.create st.analysis (default_chat_template st.analysis)).chat
      req.message svc).1 with
  | ok resp =>
    by_cases hr : resp = "" <;>
      simp [h, hr, setSession_setSession]
  | error e => simp [h, setSession_setSession]

/-- C10 witness: after a concrete analyze-documents call on the initial
state, a fresh chat session is grounded in the empty prior analysis, not in
the analysis just produced. -/
theorem c10_analyze_documents_keeps_module_analysis_witness :
    (chat_with_bot (analyze_documents initial_state "FRESH").1 ⟨"q", "s", none⟩
        (fun _ _ => .ok "A")).2.chatbot_sessions =
      [("s", ⟨"", default_chat_template "", [⟨.user, "q"⟩, ⟨.assistant, "A"⟩]⟩)] := by
  have h := c10_analyze_documents_keeps_module_analysis.2.2 initial_state "FRESH"
    ⟨"q", "s", none⟩ (fun _ _ => .ok "A") rfl rfl
  rw [h]
  rfl

/-! ### `b2j` and `MatchRun` basics -/

/-- Characterization of `b2j` membership. -/
theorem mem_b2j_iff {b : List String} {x : String} {j : Nat} :
    j ∈ b2j b x ↔ (b[j]? = some x ∧
      ¬(b.length ≥ 200 ∧
        ((List.range b.length).filter fun t => decide (b[t]? = some x)).length >
          b.length / 100 + 1)) := by
  simp only [b2j]
  split
  case isTrue h => simp only [List.not_mem_nil, false_iff]; intro hc; exact hc.2 h
  case isFalse h =>
    rw [List.mem_filter, List.mem_range]
    constructor
    · rintro ⟨h1, h2⟩
      exact ⟨of_decide_eq_true h2, h⟩
    · rintro ⟨h1, -⟩
      refine ⟨?_, decide_eq_true h1⟩
      rcases List.getElem?_eq_some.1 h1 with ⟨hlt, -⟩
      exact hlt

/-- A listed position holds the element. -/
theorem b2j_mem_some {b : List String} {x : String} {j : Nat} (h : j ∈ b2j b x) :
    b[j]? = some x :=
  (mem_b2j_iff.1 h).1

/-- Position lists of `b2j` are strictly ascending. -/
theorem b2j_sorted (b : List String) (x : String) : (b2j b x).Pairwise (· < ·) := by
  simp only [b2j]
  split
  · exact List.Pairwise.nil
  · exact (List.pairwise_lt_range _).filter _

/-- Popularity is a property of the element, so every position of a listed
element is itself listed. -/
theorem b2j_mem_of_getElem {b : List String} {x : String} {i j : Nat}
    (hj : j ∈ b2j b x) (hi : b[i]? = some x) : i ∈ b2j b x := by
  rw [mem_b2j_iff] at hj ⊢
  exact ⟨hi, hj.2⟩

/-- The empty run is a match run. -/
theorem matchRun_zero (a b : List String) (bi bj : Nat) : MatchRun a b bi bj 0 :=
  fun s hs => absurd hs (Nat.not_lt_zero s)

/-- A backward chain ending at `(i, j)` re-read as a forward run. -/
theorem matchRun_of_chain {a b : List String} {i j k : Nat}
    (h : ∀ s, s < k → MatchAt a b (i - s) (j - s)) (hik : k ≤ i + 1) (hjk : k ≤ j + 1) :
    MatchRun a b (i + 1 - k) (j + 1 - k) k := by
  intro s hs
  have h2 := h (k - 1 - s) (by omega)
  have e1 : i - (k - 1 - s) = i + 1 - k + s := by omega
  have e2 : j - (k - 1 - s) = j + 1 - k + s := by omega
  rw [e1, e2] at h2
  exact h2

/-- `BestInv` is monotone in the index bound. -/
theorem BestInv.mono {a b : List String} {alo blo bhi i i' : Nat} {st : FLMState}
    (h : BestInv a b alo blo bhi i st) (hle : i ≤ i') : BestInv a b alo blo bhi i' st :=
  ⟨h.1, h.2.1, h.2.2.1, fun hne => ⟨Nat.le_trans (h.2.2.2.1 hne).1 hle, (h.2.2.2.1 hne).2⟩,
    h.2.2.2.2⟩

/-! ### The main loop of `find_longest_match` preserves its invariants -/

/-- Processing one `b2j` position list preserves the row and best
invariants. -/
theorem flmInner_spec (a b : List String) (alo blo bhi i : Nat) (x : String) (g : Nat → Nat)
    (hx : a[i]? = some x) (halo : alo ≤ i) (hg : RowInv a b alo blo bhi i g) :
    ∀ (js : List Nat) (new : Nat → Nat) (bi bj k : Nat),
      (∀ j ∈ js, b[j]? = some x) →
      RowInv a b alo blo bhi (i + 1) new →
      BestInv a b alo blo bhi (i + 1) ⟨new, bi, bj, k⟩ →
      RowInv a b alo blo bhi (i + 1) (flmInner blo bhi i g js new bi bj k).j2len ∧
      BestInv a b alo blo bhi (i + 1) (flmInner blo bhi i g js new bi bj k) := by
  intro js
  induction js with
  | nil => intro new bi bj k _ hnew hbest; exact ⟨hnew, hbest⟩
  | cons j rest ih =>
    intro new bi bj k hmem hnew hbest
    simp only [flmInner]
    by_cases h1 : j < blo
    · rw [if_pos h1]
      exact ih new bi bj k (fun t ht => hmem t (List.mem_cons_of_mem _ ht)) hnew hbest
    · rw [if_neg h1]
      by_cases h2 : bhi ≤ j
      · rw [if_pos h2]
        exact ⟨hnew, hbest⟩
      · rw [if_neg h2]
        have hbj : b[j]? = some x := hmem j (List.mem_cons_self _ _)
        have hblo : blo ≤ j := Nat.le_of_not_lt h1
        have hjbhi : j < bhi := Nat.lt_of_not_le h2
        have hm0 : MatchAt a b i j := ⟨hx.trans hbj.symm, by rw [hx]; rfl⟩
        have hkc : ((if j = 0 then 0 else g (j - 1)) + 1) ≤ i + 1 - alo ∧
            blo + ((if j = 0 then 0 else g (j - 1)) + 1) ≤ j + 1 ∧
            (∀ s, s < (if j = 0 then 0 else g (j - 1)) + 1 →
              MatchAt a b (i - s) (j - s)) := by
          by_cases hj0 : j = 0
          · rw [if_pos hj0]
            refine ⟨by omega, by omega, fun s hs => ?_⟩
            have hs0 : s = 0 := by omega
            subst hs0
            simpa using hm0
          · rw [if_neg hj0]
            by_cases hg0 : g (j - 1) = 0
            · rw [hg0]
              refine ⟨by omega, by omega, fun s hs => ?_⟩
              have hs0 : s = 0 := by omega
              subst hs0
              simpa using hm0
            · obtain ⟨hai, hle, hbl, -, hmm⟩ := hg (j - 1) hg0
              refine ⟨by omega, by omega, fun s hs => ?_⟩
              cases s with
              | zero => simpa using hm0
              | succ s' =>
                have h3 := hmm s' (by omega)
                have e1 : i - 1 - s' = i - (s' + 1) := by omega
                have e2 : j - 1 - s' = j - (s' + 1) := by omega
                rw [e1, e2] at h3
                exact h3
        have happ : ∀ t : Nat,
            (fun t => if t = j then (if j = 0 then 0 else g (j - 1)) + 1 else new t) t
              = if t = j then (if j = 0 then 0 else g (j - 1)) + 1 else new t :=
          fun _ => rfl
        have hnew' : RowInv a b alo blo bhi (i + 1)
            (fun t => if t = j then (if j = 0 then 0 else g (j - 1)) + 1 else new t) := by
          intro t ht
          rw [happ t] at ht ⊢
          by_cases htj : t = j
          · rw [if_pos htj] at ht ⊢
            subst htj
            have e1 : i + 1 - 1 = i := by omega
            refine ⟨by omega, by omega, by omega, hjbhi, fun s hs => ?_⟩
            rw [e1]
            exact hkc.2.2 s hs
          · rw [if_neg htj] at ht ⊢
            exact hnew t ht
        by_cases hlt : k < (if j = 0 then 0 else g (j - 1)) + 1
        · rw [if_pos hlt]
          refine ih _ _ _ _ (fun t ht => hmem t (List.mem_cons_of_mem _ ht)) hnew' ?_
          refine ⟨?_, ?_, ?_, ?_, ?_⟩
          · show alo ≤ i + 1 - ((if j = 0 then 0 else g (j - 1)) + 1)
            omega
          · show blo ≤ j + 1 - ((if j = 0 then 0 else g (j - 1)) + 1)
            omega
          · intro h0
            have h0' : (if j = 0 then 0 else g (j - 1)) + 1 = 0 := h0
            omega
          · intro hne
            constructor
            · show i + 1 - ((if j = 0 then 0 else g (j - 1)) + 1) +
                ((if j = 0 then 0 else g (j - 1)) + 1) ≤ i + 1
              omega
            · show j + 1 - ((if j = 0 then 0 else g (j - 1)) + 1) +
                ((if j = 0 then 0 else g (j - 1)) + 1) ≤ bhi
              omega
          · show MatchRun a b (i + 1 - ((if j = 0 then 0 else g (j - 1)) + 1))
              (j + 1 - ((if j = 0 then 0 else g (j - 1)) + 1))
              ((if j = 0 then 0 else g (j - 1)) + 1)
            exact matchRun_of_chain hkc.2.2 (by omega) (by omega)
        · rw [if_neg hlt]
          refine ih _ _ _ _ (fun t ht => hmem t (List.mem_cons_of_mem _ ht)) hnew' ?_
          exact ⟨hbest.1, hbest.2.1, hbest.2.2.1, hbest.2.2.2.1, hbest.2.2.2.2⟩

/-- One outer-loop step preserves the invariants. -/
theorem flmStep_spec (a b : List String) (alo blo bhi i : Nat) (st : FLMState)
    (halo : alo ≤ i)
    (h1 : RowInv a b alo blo bhi i st.j2len) (h2 : BestInv a b alo blo bhi i st) :
    RowInv a b alo blo bhi (i + 1) (flmStep a b blo bhi st i).j2len ∧
    BestInv a b alo blo bhi (i + 1) (flmStep a b blo bhi st i) := by
  have hmono := h2.mono (Nat.le_succ i)
  cases hx : a[i]? with
  | none =>
    have hdef : flmStep a b blo bhi st i =
        flmInner blo bhi i st.j2len [] (fun _ => 0) st.besti st.bestj st.bestsize := by
      unfold flmStep
      rw [hx]
    rw [hdef]
    simp only [flmInner]
    exact ⟨fun j hj => absurd rfl hj, hmono⟩
  | some x =>
    have hdef : flmStep a b blo bhi st i =
        flmInner blo bhi i st.j2len (b2j b x) (fun _ => 0) st.besti st.bestj st.bestsize := by
      unfold flmStep
      rw [hx]
    rw [hdef]
    exact flmInner_spec a b alo blo bhi i x st.j2len hx halo h1 (b2j b x) (fun _ => 0)
      st.besti st.bestj st.bestsize (fun j hj => b2j_mem_some hj)
      (fun j hj => absurd rfl hj) hmono

/-- The whole main loop preserves the invariants. -/
theorem flmFold_spec (a b : List String) (alo blo bhi : Nat) :
    ∀ (n i : Nat) (st : FLMState), alo ≤ i →
      RowInv a b alo blo bhi i st.j2len → BestInv a b alo blo bhi i st →
      RowInv a b alo blo bhi (i + n)
        ((List.range' i n).foldl (flmStep a b blo bhi) st).j2len ∧
      BestInv a b alo blo bhi (i + n)
        ((List.range' i n).foldl (flmStep a b blo bhi) st) := by
  intro n
  induction n with
  | zero => intro i st _ h1 h2; simpa using ⟨h1, h2⟩
  | succ m ih =>
    intro i st halo h1 h2
    rw [List.range'_succ]
    simp only [List.foldl_cons]
    have hstep := flmStep_spec a b alo blo bhi i st halo h1 h2
    have hrec := ih (i + 1) (flmStep a b blo bhi st i) (by omega) hstep.1 hstep.2
    have heq : i + (m + 1) = (i + 1) + m := by omega
    rw [heq]
    exact hrec

/-- Invariants of the state after the full main loop. -/
theorem flmMain_spec (a b : List String) (alo ahi blo bhi : Nat) (h : alo ≤ ahi) :
    RowInv a b alo blo bhi ahi (flmMain a b alo ahi blo bhi).j2len ∧
    BestInv a b alo blo bhi ahi (flmMain a b alo ahi blo bhi) := by
  have hinit1 : RowInv a b alo blo bhi alo (fun _ => (0 : Nat)) :=
    fun j hj => absurd rfl hj
  have hinit2 : BestInv a b alo blo bhi alo ⟨fun _ => 0, alo, blo, 0⟩ :=
    ⟨Nat.le_refl _, Nat.le_refl _, fun _ => ⟨rfl, rfl⟩, fun h0 => absurd rfl h0,
      matchRun_zero a b alo blo⟩
  have hfold := flmFold_spec a b alo blo bhi (ahi - alo) alo ⟨fun _ => 0, alo, blo, 0⟩
    (Nat.le_refl _) hinit1 hinit2
  have heq : alo + (ahi - alo) = ahi := by omega
  rw [heq] at hfold
  exact hfold

/-! ### Extension loops -/

/-- The backward loop never fires from the sentinel `besti = alo`. -/
theorem extendBackward_stuck (a b : List String) (alo blo bj k : Nat) :
    extendBackward a b alo blo alo bj k = (alo, bj, k) := by
  cases alo with
  | zero => rfl
  | succ n =>
    rw [extendBackward]
    rw [if_neg]
    intro hc
    exact absurd hc.1 (Nat.lt_irrefl _)

/-- Correctness of the backward extension loop. -/
theorem extendBackward_spec (a b : List String) (alo blo : Nat) :
    ∀ bi bj k, alo ≤ bi → blo ≤ bj → MatchRun a b bi bj k →
      alo ≤ (extendBackward a b alo blo bi bj k).1 ∧
      blo ≤ (extendBackward a b alo blo bi bj k).2.1 ∧
      (extendBackward a b alo blo bi bj k).1 + (extendBackward a b alo blo bi bj k).2.2
        = bi + k ∧
      (extendBackward a b alo blo bi bj k).2.1 + (extendBackward a b alo blo bi bj k).2.2
        = bj + k ∧
      k ≤ (extendBackward a b alo blo bi bj k).2.2 ∧
      MatchRun a b (extendBackward a b alo blo bi bj k).1
        (extendBackward a b alo blo bi bj k).2.1
        (extendBackward a b alo blo bi bj k).2.2 := by
  intro bi
  induction bi with
  | zero =>
    intro bj k h1 h2 h3
    exact ⟨h1, h2, rfl, rfl, Nat.le_refl _, h3⟩
  | succ n ih =>
    intro bj k h1 h2 h3
    rw [extendBackward]
    by_cases hc : alo < n + 1 ∧ blo < bj ∧ a[n]? = b[bj - 1]? ∧ (a[n]?).isSome
    · rw [if_pos hc]
      have hrun : MatchRun a b n (bj - 1) (k + 1) := by
        intro s hs
        cases s with
        | zero => simpa using ⟨hc.2.2.1, hc.2.2.2⟩
        | succ s' =>
          have h4 := h3 s' (by omega)
          have e1 : n + (s' + 1) = n + 1 + s' := by omega
          have e2 : bj - 1 + (s' + 1) = bj + s' := by omega
          rw [e1, e2]
          exact h4
      have hrec := ih (bj - 1) (k + 1) (by omega) (by omega) hrun
      refine ⟨hrec.1, hrec.2.1, ?_, ?_, by omega, hrec.2.2.2.2.2⟩
      · rw [hrec.2.2.1]; omega
      · rw [hrec.2.2.2.1]; omega
    · rw [if_neg hc]
      exact ⟨h1, h2, rfl, rfl, Nat.le_refl _, h3⟩

/-- Correctness of the fueled forward extension loop. -/
theorem extendForwardAux_spec (a b : List String) (ahi bhi bi bj : Nat) :
    ∀ gas k, MatchRun a b bi bj k →
      (k ≠ 0 → bi + k ≤ ahi ∧ bj + k ≤ bhi) →
      k ≤ extendForwardAux a b ahi bhi bi bj gas k ∧
      MatchRun a b bi bj (extendForwardAux a b ahi bhi bi bj gas k) ∧
      (extendForwardAux a b ahi bhi bi bj gas k ≠ 0 →
        bi + extendForwardAux a b ahi bhi bi bj gas k ≤ ahi ∧
        bj + extendForwardAux a b ahi bhi bi bj gas k ≤ bhi) := by
  intro gas
  induction gas with
  | zero => intro k h1 h2; exact ⟨Nat.le_refl _, h1, h2⟩
  | succ g ih =>
    intro k h1 h2
    rw [extendForwardAux]
    by_cases hc : bi + k < ahi ∧ bj + k < bhi ∧ a[bi + k]? = b[bj + k]? ∧ (a[bi + k]?).isSome
    · rw [if_pos hc]
      have hrun : MatchRun a b bi bj (k + 1) := by
        intro s hs
        by_cases hsk : s < k
        · exact h1 s hsk
        · have hs0 : s = k := by omega
          subst hs0
          exact ⟨hc.2.2.1, hc.2.2.2⟩
      have hrec := ih (k + 1) hrun (fun _ => ⟨by omega, by omega⟩)
      exact ⟨Nat.le_trans (by omega) hrec.1, hrec.2.1, hrec.2.2⟩
    · rw [if_neg hc]
      exact ⟨Nat.le_refl _, h1, h2⟩

/-- Correctness of `find_longest_match`: the returned triple is a real match
run inside the window. -/
theorem find_longest_match_spec (a b : List String) (alo ahi blo bhi : Nat)
    (h : alo ≤ ahi) :
    alo ≤ (find_longest_match a b alo ahi blo bhi).1 ∧
    blo ≤ (find_longest_match a b alo ahi blo bhi).2.1 ∧
    MatchRun a b (find_longest_match a b alo ahi blo bhi).1
      (find_longest_match a b alo ahi blo bhi).2.1
      (find_longest_match a b alo ahi blo bhi).2.2 ∧
    ((find_longest_match a b alo ahi blo bhi).2.2 ≠ 0 →
      (find_longest_match a b alo ahi blo bhi).1 +
        (find_longest_match a b alo ahi blo bhi).2.2 ≤ ahi ∧
      (find_longest_match a b alo ahi blo bhi).2.1 +
        (find_longest_match a b alo ahi blo bhi).2.2 ≤ bhi) := by
  obtain ⟨-, hb⟩ := flmMain_spec a b alo ahi blo bhi h
  obtain ⟨hb1, hb2, hb3, hb4, hb5⟩ := hb
  have hback := extendBackward_spec a b alo blo (flmMain a b alo ahi blo bhi).besti
    (flmMain a b alo ahi blo bhi).bestj (flmMain a b alo ahi blo bhi).bestsize hb1 hb2 hb5
  obtain ⟨hk1, hk2, hk3, hk4, hk5, hk6⟩ := hback
  have hpre : (extendBackward a b alo blo (flmMain a b alo ahi blo bhi).besti
        (flmMain a b alo ahi blo bhi).bestj (flmMain a b alo ahi blo bhi).bestsize).2.2 ≠ 0 →
      (extendBackward a b alo blo (flmMain a b alo ahi blo bhi).besti
        (flmMain a b alo ahi blo bhi).bestj (flmMain a b alo ahi blo bhi).bestsize).1 +
        (extendBackward a b alo blo (flmMain a b alo ahi blo bhi).besti
          (flmMain a b alo ahi blo bhi).bestj (flmMain a b alo ahi blo bhi).bestsize).2.2 ≤ ahi ∧
      (extendBackward a b alo blo (flmMain a b alo ahi blo bhi).besti
        (flmMain a b alo ahi blo bhi).bestj (flmMain a b alo ahi blo bhi).bestsize).2.1 +
        (extendBackward a b alo blo (flmMain a b alo ahi blo bhi).besti
          (flmMain a b alo ahi blo bhi).bestj (flmMain a b alo ahi blo bhi).bestsize).2.2 ≤ bhi := by
    intro hne
    by_cases hsz : (flmMain a b alo ahi blo bhi).bestsize = 0
    · obtain ⟨he1, he2⟩ := hb3 hsz
      rw [he1, he2, hsz] at hne
      rw [extendBackward_stuck] at hne
      exact absurd rfl hne
    · obtain ⟨hs1, hs2⟩ := hb4 hsz
      constructor
      · rw [hk3]; exact hs1
      · rw [hk4]; exact hs2
  have hfwd := extendForwardAux_spec a b ahi bhi
    (extendBackward a b alo blo (flmMain a b alo ahi blo bhi).besti
      (flmMain a b alo ahi blo bhi).bestj (flmMain a b alo ahi blo bhi).bestsize).1
    (extendBackward a b alo blo (flmMain a b alo ahi blo bhi).besti
      (flmMain a b alo ahi blo bhi).bestj (flmMain a b alo ahi blo bhi).bestsize).2.1
    (ahi - ((extendBackward a b alo blo (flmMain a b alo ahi blo bhi).besti
      (flmMain a b alo ahi blo bhi).bestj (flmMain a b alo ahi blo bhi).bestsize).1 +
      (extendBackward a b alo blo (flmMain a b alo ahi blo bhi).besti
        (flmMain a b alo ahi blo bhi).bestj (flmMain a b alo ahi blo bhi).bestsize).2.2))
    (extendBackward a b alo blo (flmMain a b alo ahi blo bhi).besti
      (flmMain a b alo ahi blo bhi).bestj (flmMain a b alo ahi blo bhi).bestsize).2.2
    hk6 hpre
  exact ⟨hk1, hk2, hfwd.2.1, hfwd.2.2⟩


/-! ### Slices and match runs -/

/-- Adjacent slices concatenate. -/
theorem listSlice_append (l : List String) (x y z : Nat) (h1 : x ≤ y) (h2 : y ≤ z) :
    listSlice l x y ++ listSlice l y z = listSlice l x z := by
  unfold listSlice
  have hz : z - x = (y - x) + (z - y) := by omega
  rw [hz, List.take_add]
  congr 1
  rw [List.drop_drop]
  congr 2
  omega

/-- The empty slice. -/
theorem listSlice_self (l : List String) (x : Nat) : listSlice l x x = [] := by
  unfold listSlice
  simp

/-- The full slice. -/
theorem listSlice_full (l : List String) : listSlice l 0 l.length = l := by
  unfold listSlice
  simp

/-- Matching runs yield equal slices. -/
theorem listSlice_eq_of_matchRun {a b : List String} {ai bj sz : Nat}
    (h : MatchRun a b ai bj sz) :
    listSlice a ai (ai + sz) = listSlice b bj (bj + sz) := by
  apply List.ext_getElem?
  intro n
  unfold listSlice
  rw [List.getElem?_take, List.getElem?_take, List.getElem?_drop, List.getElem?_drop]
  have e1 : ai + sz - ai = sz := by omega
  have e2 : bj + sz - bj = sz := by omega
  rw [e1, e2]
  by_cases hn : n < sz
  · rw [if_pos hn, if_pos hn]
    exact (h n hn).1
  · rw [if_neg hn, if_neg hn]

/-- Two adjacent runs concatenate. -/
theorem matchRun_concat {a b : List String} {i j k1 k2 : Nat}
    (h1 : MatchRun a b i j k1) (h2 : MatchRun a b (i + k1) (j + k1) k2) :
    MatchRun a b i j (k1 + k2) := by
  intro s hs
  by_cases hsk : s < k1
  · exact h1 s hsk
  · have h3 := h2 (s - k1) (by omega)
    have e1 : i + k1 + (s - k1) = i + s := by omega
    have e2 : j + k1 + (s - k1) = j + s := by omega
    rw [e1, e2] at h3
    exact h3

/-! ### The recursive block collection -/

/-- Every block of `matchingBlocksRec` is a non-trivial match run inside the
window, and the collected blocks are pairwise separated in both coordinates. -/
theorem matchingBlocksRec_spec (a b : List String) :
    ∀ (fuel alo ahi blo bhi : Nat),
      (ahi - alo) + (bhi - blo) < fuel → alo ≤ ahi → blo ≤ bhi →
      (∀ blk ∈ matchingBlocksRec a b fuel alo ahi blo bhi,
        alo ≤ blk.1 ∧ blk.1 + blk.2.2 ≤ ahi ∧ blo ≤ blk.2.1 ∧ blk.2.1 + blk.2.2 ≤ bhi ∧
        blk.2.2 ≠ 0 ∧ MatchRun a b blk.1 blk.2.1 blk.2.2) ∧
      (matchingBlocksRec a b fuel alo ahi blo bhi).Pairwise SepBlocks := by
  intro fuel
  induction fuel with
  | zero => intro alo ahi blo bhi hf _ _; exact absurd hf (by omega)
  | succ f ih =>
    intro alo ahi blo bhi hf h1 h2
    obtain ⟨hm1, hm2, hm3, hm4⟩ := find_longest_match_spec a b alo ahi blo bhi h1
    simp only [matchingBlocksRec]
    by_cases hz : (find_longest_match a b alo ahi blo bhi).2.2 = 0
    · rw [if_pos hz]
      exact ⟨fun blk h => absurd h (List.not_mem_nil blk), List.Pairwise.nil⟩
    · rw [if_neg hz]
      obtain ⟨hs1, hs2⟩ := hm4 hz
      set m := find_longest_match a b alo ahi blo bhi with hmdef
      have hleft : (∀ blk ∈ (if alo < m.1 ∧ blo < m.2.1 then
            matchingBlocksRec a b f alo m.1 blo m.2.1 else []),
          alo ≤ blk.1 ∧ blk.1 + blk.2.2 ≤ m.1 ∧ blo ≤ blk.2.1 ∧ blk.2.1 + blk.2.2 ≤ m.2.1 ∧
          blk.2.2 ≠ 0 ∧ MatchRun a b blk.1 blk.2.1 blk.2.2) ∧
          (if alo < m.1 ∧ blo < m.2.1 then
            matchingBlocksRec a b f alo m.1 blo m.2.1 else []).Pairwise SepBlocks := by
        split
        case isTrue hcond =>
          exact ih alo m.1 blo m.2.1 (by omega) (by omega) (by omega)
        case isFalse hcond =>
          exact ⟨fun blk h => absurd h (List.not_mem_nil blk), List.Pairwise.nil⟩
      have hright : (∀ blk ∈ (if m.1 + m.2.2 < ahi ∧ m.2.1 + m.2.2 < bhi then
            matchingBlocksRec a b f (m.1 + m.2.2) ahi (m.2.1 + m.2.2) bhi else []),
          m.1 + m.2.2 ≤ blk.1 ∧ blk.1 + blk.2.2 ≤ ahi ∧ m.2.1 + m.2.2 ≤ blk.2.1 ∧
          blk.2.1 + blk.2.2 ≤ bhi ∧ blk.2.2 ≠ 0 ∧ MatchRun a b blk.1 blk.2.1 blk.2.2) ∧
          (if m.1 + m.2.2 < ahi ∧ m.2.1 + m.2.2 < bhi then
            matchingBlocksRec a b f (m.1 + m.2.2) ahi (m.2.1 + m.2.2) bhi else []).Pairwise
            SepBlocks := by
        split
        case isTrue hcond =>
          exact ih (m.1 + m.2.2) ahi (m.2.1 + m.2.2) bhi (by omega) (by omega) (by omega)
        case isFalse hcond =>
          exact ⟨fun blk h => absurd h (List.not_mem_nil blk), List.Pairwise.nil⟩
      constructor
      · intro blk hb
        rcases List.mem_append.1 hb with hb1 | hb2
        · rcases List.mem_append.1 hb1 with hb3 | hb4
          · have hp := hleft.1 blk hb3
            exact ⟨hp.1, by omega, hp.2.2.1, by omega, hp.2.2.2.2.1, hp.2.2.2.2.2⟩
          · have hbm : blk = m := by simpa using hb4
            subst hbm
            exact ⟨hm1, hs1, hm2, hs2, hz, hm3⟩
        · have hp := hright.1 blk hb2
          exact ⟨by omega, hp.2.1, by omega, hp.2.2.2.1, hp.2.2.2.2.1, hp.2.2.2.2.2⟩
      · rw [List.pairwise_append]
        refine ⟨?_, hright.2, ?_⟩
        · rw [List.pairwise_append]
          refine ⟨hleft.2, List.pairwise_singleton _ _, ?_⟩
          intro x hx y hy
          have hp := hleft.1 x hx
          have hym : y = m := by simpa using hy
          subst hym
          exact ⟨by omega, by omega⟩
        · intro x hx y hy
          have hq := hright.1 y hy
          rcases List.mem_append.1 hx with hx1 | hx2
          · have hp := hleft.1 x hx1
            exact ⟨by omega, by omega⟩
          · have hxm : x = m := by simpa using hx2
            subst hxm
            exact ⟨by omega, by omega⟩

/-! ### The merging pass -/

/-- `mergeAux` preserves goodness: if the incoming blocks are separated match
runs, the pending block is a run ending before them, and the accumulator is
already a separated list of runs ending before the pending block, then the
final list is a separated list of non-trivial runs. -/
theorem mergeAux_spec (a b : List String) (la lb : Nat) :
    ∀ (L : List (Nat × Nat × Nat)) (i1 j1 k1 : Nat) (acc : List (Nat × Nat × Nat)),
      (∀ blk ∈ L, blk.2.2 ≠ 0 ∧ blk.1 + blk.2.2 ≤ la ∧ blk.2.1 + blk.2.2 ≤ lb ∧
        MatchRun a b blk.1 blk.2.1 blk.2.2) →
      L.Pairwise SepBlocks →
      (k1 ≠ 0 → i1 + k1 ≤ la ∧ j1 + k1 ≤ lb) →
      MatchRun a b i1 j1 k1 →
      (∀ blk ∈ L, i1 + k1 ≤ blk.1 ∧ j1 + k1 ≤ blk.2.1) →
      (∀ blk ∈ acc, blk.2.2 ≠ 0 ∧ blk.1 + blk.2.2 ≤ la ∧ blk.2.1 + blk.2.2 ≤ lb ∧
        MatchRun a b blk.1 blk.2.1 blk.2.2) →
      acc.Pairwise SepBlocks →
      (∀ blk ∈ acc, blk.1 + blk.2.2 ≤ i1 ∧ blk.2.1 + blk.2.2 ≤ j1) →
      (∀ blk ∈ mergeAux i1 j1 k1 acc L, blk.2.2 ≠ 0 ∧ blk.1 + blk.2.2 ≤ la ∧
        blk.2.1 + blk.2.2 ≤ lb ∧ MatchRun a b blk.1 blk.2.1 blk.2.2) ∧
      (mergeAux i1 j1 k1 acc L).Pairwise SepBlocks := by
  intro L
  induction L with
  | nil =>
    intro i1 j1 k1 acc hL hLp hk hrun hsep hacc haccp haccend
    simp only [mergeAux]
    by_cases hk1 : k1 ≠ 0
    · rw [if_pos hk1]
      constructor
      · intro blk hb
        rcases List.mem_append.1 hb with hb1 | hb2
        · exact hacc blk hb1
        · have hbm : blk = (i1, j1, k1) := by simpa using hb2
          subst hbm
          exact ⟨hk1, (hk hk1).1, (hk hk1).2, hrun⟩
      · rw [List.pairwise_append]
        refine ⟨haccp, List.pairwise_singleton _ _, ?_⟩
        intro x hx y hy
        have hym : y = (i1, j1, k1) := by simpa using hy
        subst hym
        have hxe := haccend x hx
        refine ⟨?_, ?_⟩
        · show x.1 + x.2.2 ≤ i1
          omega
        · show x.2.1 + x.2.2 ≤ j1
          omega
    · rw [if_neg hk1]
      exact ⟨hacc, haccp⟩
  | cons hd tl ih =>
    obtain ⟨i2, j2, k2⟩ := hd
    intro i1 j1 k1 acc hL hLp hk hrun hsep hacc haccp haccend
    have hhd : k2 ≠ 0 ∧ i2 + k2 ≤ la ∧ j2 + k2 ≤ lb ∧ MatchRun a b i2 j2 k2 :=
      hL (i2, j2, k2) (List.mem_cons_self _ _)
    have hhdsep : i1 + k1 ≤ i2 ∧ j1 + k1 ≤ j2 :=
      hsep (i2, j2, k2) (List.mem_cons_self _ _)
    have htl : ∀ blk ∈ tl, blk.2.2 ≠ 0 ∧ blk.1 + blk.2.2 ≤ la ∧ blk.2.1 + blk.2.2 ≤ lb ∧
        MatchRun a b blk.1 blk.2.1 blk.2.2 :=
      fun blk hb => hL blk (List.mem_cons_of_mem _ hb)
    have hhdtl : ∀ blk ∈ tl, i2 + k2 ≤ blk.1 ∧ j2 + k2 ≤ blk.2.1 :=
      fun blk hb => (List.pairwise_cons.1 hLp).1 blk hb
    have htlp : tl.Pairwise SepBlocks := (List.pairwise_cons.1 hLp).2
    simp only [mergeAux]
    by_cases hadj : i1 + k1 = i2 ∧ j1 + k1 = j2
    · rw [if_pos hadj]
      have hrun' : MatchRun a b i1 j1 (k1 + k2) := by
        apply matchRun_concat hrun
        rw [hadj.1, hadj.2]
        exact hhd.2.2.2
      exact ih i1 j1 (k1 + k2) acc htl htlp
        (fun _ => ⟨by omega, by omega⟩) hrun'
        (fun blk hb => by have := hhdtl blk hb; exact ⟨by omega, by omega⟩)
        hacc haccp
        (fun blk hb => by have := haccend blk hb; exact ⟨by omega, by omega⟩)
    · rw [if_neg hadj]
      by_cases hk1 : k1 ≠ 0
      · rw [if_pos hk1]
        exact ih i2 j2 k2 (acc ++ [(i1, j1, k1)]) htl htlp
          (fun _ => ⟨by omega, by omega⟩) hhd.2.2.2
          (fun blk hb => by have := hhdtl blk hb; exact ⟨by omega, by omega⟩)
          (fun blk hb => by
            rcases List.mem_append.1 hb with hb1 | hb2
            · exact hacc blk hb1
            · have hbm : blk = (i1, j1, k1) := by simpa using hb2
              subst hbm
              exact ⟨hk1, (hk hk1).1, (hk hk1).2, hrun⟩)
          (by
            rw [List.pairwise_append]
            refine ⟨haccp, List.pairwise_singleton _ _, ?_⟩
            intro x hx y hy
            have hym : y = (i1, j1, k1) := by simpa using hy
            subst hym
            have hxe := haccend x hx
            refine ⟨?_, ?_⟩
            · show x.1 + x.2.2 ≤ i1
              omega
            · show x.2.1 + x.2.2 ≤ j1
              omega)
          (fun blk hb => by
            rcases List.mem_append.1 hb with hb1 | hb2
            · have := haccend blk hb1
              refine ⟨?_, ?_⟩
              · show blk.1 + blk.2.2 ≤ i2
                omega
              · show blk.2.1 + blk.2.2 ≤ j2
                omega
            · have hbm : blk = (i1, j1, k1) := by simpa using hb2
              subst hbm
              refine ⟨?_, ?_⟩
              · show i1 + k1 ≤ i2
                omega
              · show j1 + k1 ≤ j2
                omega)
      · rw [if_neg hk1]
        have hk10 : k1 = 0 := by omega
        exact ih i2 j2 k2 acc htl htlp
          (fun _ => ⟨by omega, by omega⟩) hhd.2.2.2
          (fun blk hb => by have := hhdtl blk hb; exact ⟨by omega, by omega⟩)
          hacc haccp
          (fun blk hb => by have := haccend blk hb; exact ⟨by omega, by omega⟩)

/-! ### From matching blocks to opcodes -/

/-- A pairwise-separated block list dominated below by `(i, j)` chains. -/
theorem chainBlocks_of_pairwise :
    ∀ (L : List (Nat × Nat × Nat)) (i j : Nat), L.Pairwise SepBlocks →
      (∀ blk ∈ L, i ≤ blk.1 ∧ j ≤ blk.2.1) → chainBlocks i j L := by
  intro L
  induction L with
  | nil => intro i j _ _; trivial
  | cons hd tl ih =>
    obtain ⟨ai, bj, sz⟩ := hd
    intro i j hp hb
    have hhd : i ≤ ai ∧ j ≤ bj := hb (ai, bj, sz) (List.mem_cons_self _ _)
    refine ⟨hhd.1, hhd.2, ?_⟩
    refine ih (ai + sz) (bj + sz) (List.pairwise_cons.1 hp).2 ?_
    intro blk hblk
    have hs : ai + sz ≤ blk.1 ∧ bj + sz ≤ blk.2.1 :=
      (List.pairwise_cons.1 hp).1 blk hblk
    exact hs

/-- `endA` distributes over append. -/
theorem endA_append (L1 L2 : List (Nat × Nat × Nat)) :
    ∀ i, endA i (L1 ++ L2) = endA (endA i L1) L2 := by
  induction L1 with
  | nil => intro i; rfl
  | cons hd tl ih =>
    obtain ⟨ai, bj, sz⟩ := hd
    intro i
    simp only [List.cons_append, endA]
    exact ih (ai + sz)

/-- `endB` distributes over append. -/
theorem endB_append (L1 L2 : List (Nat × Nat × Nat)) :
    ∀ j, endB j (L1 ++ L2) = endB (endB j L1) L2 := by
  induction L1 with
  | nil => intro j; rfl
  | cons hd tl ih =>
    obtain ⟨ai, bj, sz⟩ := hd
    intro j
    simp only [List.cons_append, endB]
    exact ih (bj + sz)

/-- The running `a`-position never exceeds `endA` along a chain. -/
theorem endA_ge :
    ∀ (L : List (Nat × Nat × Nat)) (i j : Nat), chainBlocks i j L → i ≤ endA i L := by
  intro L
  induction L with
  | nil => intro i j _; exact Nat.le_refl _
  | cons hd tl ih =>
    obtain ⟨ai, bj, sz⟩ := hd
    intro i j hc
    obtain ⟨h1, h2, h3⟩ := hc
    have := ih (ai + sz) (bj + sz) h3
    show i ≤ endA (ai + sz) tl
    omega

/-- The running `b`-position never exceeds `endB` along a chain. -/
theorem endB_ge :
    ∀ (L : List (Nat × Nat × Nat)) (i j : Nat), chainBlocks i j L → j ≤ endB j L := by
  intro L
  induction L with
  | nil => intro i j _; exact Nat.le_refl _
  | cons hd tl ih =>
    obtain ⟨ai, bj, sz⟩ := hd
    intro i j hc
    obtain ⟨h1, h2, h3⟩ := hc
    have := ih (ai + sz) (bj + sz) h3
    show j ≤ endB (bj + sz) tl
    omega

/-- Joining the `a`-side (resp. `b`-side) slices of the opcodes reconstructs
the slice of the whole spanned range: the gap opcode covers `[i, ai)` and the
`equal` opcode covers `[ai, ai+sz)`, in order, for every block. -/
theorem opcodesAux_join (a b : List String) :
    ∀ (L : List (Nat × Nat × Nat)) (i j : Nat), chainBlocks i j L →
      (((opcodesAux i j L).map fun op => listSlice a op.i1 op.i2).flatten
        = listSlice a i (endA i L)) ∧
      (((opcodesAux i j L).map fun op => listSlice b op.j1 op.j2).flatten
        = listSlice b j (endB j L)) := by
  intro L
  induction L with
  | nil =>
    intro i j _
    constructor <;> simp [opcodesAux, endA, endB, listSlice_self]
  | cons hd tl ih =>
    obtain ⟨ai, bj, sz⟩ := hd
    intro i j hc
    obtain ⟨hia, hjb, hrest⟩ := hc
    have hrec := ih (ai + sz) (bj + sz) hrest
    have hendA : ai + sz ≤ endA (ai + sz) tl := endA_ge tl (ai + sz) (bj + sz) hrest
    have hendB : bj + sz ≤ endB (bj + sz) tl := endB_ge tl (ai + sz) (bj + sz) hrest
    have hgapA : listSlice a i ai ++ (listSlice a ai (ai + sz) ++
        listSlice a (ai + sz) (endA (ai + sz) tl)) = listSlice a i (endA (ai + sz) tl) := by
      rw [listSlice_append a ai (ai + sz) (endA (ai + sz) tl) (by omega) hendA]
      exact listSlice_append a i ai (endA (ai + sz) tl) hia (by omega)
    have hgapB : listSlice b j bj ++ (listSlice b bj (bj + sz) ++
        listSlice b (bj + sz) (endB (bj + sz) tl)) = listSlice b j (endB (bj + sz) tl) := by
      rw [listSlice_append b bj (bj + sz) (endB (bj + sz) tl) (by omega) hendB]
      exact listSlice_append b j bj (endB (bj + sz) tl) hjb (by omega)
    have hcons : opcodesAux i j ((ai, bj, sz) :: tl) =
        (if i < ai ∧ j < bj then [⟨.replace, i, ai, j, bj⟩]
         else if i < ai then [⟨.delete, i, ai, j, bj⟩]
         else if j < bj then [⟨.insert, i, ai, j, bj⟩]
         else [])
          ++ (if sz ≠ 0 then [⟨.equal, ai, ai + sz, bj, bj + sz⟩] else [])
          ++ opcodesAux (ai + sz) (bj + sz) tl := rfl
    have hendsA : endA i ((ai, bj, sz) :: tl) = endA (ai + sz) tl := rfl
    have hendsB : endB j ((ai, bj, sz) :: tl) = endB (bj + sz) tl := rfl
    rw [hcons, hendsA, hendsB]
    have hgap :
        ((if i < ai ∧ j < bj then [(⟨.replace, i, ai, j, bj⟩ : Opcode)]
          else if i < ai then [⟨.delete, i, ai, j, bj⟩]
          else if j < bj then [⟨.insert, i, ai, j, bj⟩]
          else []).map fun op => listSlice a op.i1 op.i2).flatten = listSlice a i ai ∧
        ((if i < ai ∧ j < bj then [(⟨.replace, i, ai, j, bj⟩ : Opcode)]
          else if i < ai then [⟨.delete, i, ai, j, bj⟩]
          else if j < bj then [⟨.insert, i, ai, j, bj⟩]
          else []).map fun op => listSlice b op.j1 op.j2).flatten = listSlice b j bj := by
      by_cases h1 : i < ai ∧ j < bj
      · rw [if_pos h1]; constructor <;> simp
      · rw [if_neg h1]
        by_cases h2 : i < ai
        · rw [if_pos h2]
          have hjbj : j = bj := by omega
          subst hjbj
          constructor <;> simp [listSlice_self]
        · rw [if_neg h2]
          have hiai : i = ai := by omega
          by_cases h3 : j < bj
          · rw [if_pos h3]
            subst hiai
            constructor <;> simp [listSlice_self]
          · rw [if_neg h3]
            have hjbj : j = bj := by omega
            subst hiai
            subst hjbj
            constructor <;> simp [listSlice_self]
    have heq :
        ((if sz ≠ 0 then [(⟨.equal, ai, ai + sz, bj, bj + sz⟩ : Opcode)] else []).map
          fun op => listSlice a op.i1 op.i2).flatten = listSlice a ai (ai + sz) ∧
        ((if sz ≠ 0 then [(⟨.equal, ai, ai + sz, bj, bj + sz⟩ : Opcode)] else []).map
          fun op => listSlice b op.j1 op.j2).flatten = listSlice b bj (bj + sz) := by
      by_cases h2 : sz ≠ 0
      · rw [if_pos h2]; constructor <;> simp
      · rw [if_neg h2]
        have hsz0 : sz = 0 := by omega
        subst hsz0
        constructor <;> simp [listSlice_self]
    constructor
    · simp only [List.map_append, List.flatten_append, hgap.1, heq.1, hrec.1]
      rw [List.append_assoc]
      exact hgapA
    · simp only [List.map_append, List.flatten_append, hgap.2, heq.2, hrec.2]
      rw [List.append_assoc]
      exact hgapB

/-- `equal` opcodes cover genuinely equal slices. -/
theorem opcodesAux_equal_spec (a b : List String) :
    ∀ (L : List (Nat × Nat × Nat)) (i j : Nat),
      (∀ blk ∈ L, MatchRun a b blk.1 blk.2.1 blk.2.2) →
      ∀ op ∈ opcodesAux i j L, op.tag = .equal →
        listSlice a op.i1 op.i2 = listSlice b op.j1 op.j2 := by
  intro L
  induction L with
  | nil => intro i j _ op hop; exact absurd hop (List.not_mem_nil op)
  | cons hd tl ih =>
    obtain ⟨ai, bj, sz⟩ := hd
    intro i j hm op hop htag
    have hhd : MatchRun a b ai bj sz := hm (ai, bj, sz) (List.mem_cons_self _ _)
    have hcons : opcodesAux i j ((ai, bj, sz) :: tl) =
        (if i < ai ∧ j < bj then [⟨.replace, i, ai, j, bj⟩]
         else if i < ai then [⟨.delete, i, ai, j, bj⟩]
         else if j < bj then [⟨.insert, i, ai, j, bj⟩]
         else [])
          ++ (if sz ≠ 0 then [⟨.equal, ai, ai + sz, bj, bj + sz⟩] else [])
          ++ opcodesAux (ai + sz) (bj + sz) tl := rfl
    rw [hcons] at hop
    rcases List.mem_append.1 hop with hop1 | hop2
    · rcases List.mem_append.1 hop1 with hop3 | hop4
      · exfalso
        by_cases h1 : i < ai ∧ j < bj
        · rw [if_pos h1] at hop3
          have : op = ⟨.replace, i, ai, j, bj⟩ := by simpa using hop3
          subst this
          simp at htag
        · rw [if_neg h1] at hop3
          by_cases h2 : i < ai
          · rw [if_pos h2] at hop3
            have : op = ⟨.delete, i, ai, j, bj⟩ := by simpa using hop3
            subst this
            simp at htag
          · rw [if_neg h2] at hop3
            by_cases h3 : j < bj
            · rw [if_pos h3] at hop3
              have : op = ⟨.insert, i, ai, j, bj⟩ := by simpa using hop3
              subst this
              simp at htag
            · rw [if_neg h3] at hop3
              exact absurd hop3 (List.not_mem_nil op)
      · by_cases h2 : sz ≠ 0
        · rw [if_pos h2] at hop4
          have : op = ⟨.equal, ai, ai + sz, bj, bj + sz⟩ := by simpa using hop4
          subst this
          exact listSlice_eq_of_matchRun hhd
        · rw [if_neg h2] at hop4
          exact absurd hop4 (List.not_mem_nil op)
    · exact ih (ai + sz) (bj + sz) (fun blk hb => hm blk (List.mem_cons_of_mem _ hb)) op
        hop2 htag

/-- The final matching-block list: every block is a match run, the blocks
chain from `(0, 0)`, and they span exactly both line lists. -/
theorem get_matching_blocks_spec (a b : List String) :
    (∀ blk ∈ get_matching_blocks a b, MatchRun a b blk.1 blk.2.1 blk.2.2) ∧
    chainBlocks 0 0 (get_matching_blocks a b) ∧
    endA 0 (get_matching_blocks a b) = a.length ∧
    endB 0 (get_matching_blocks a b) = b.length := by
  obtain ⟨hraw, hrawp⟩ := matchingBlocksRec_spec a b (a.length + b.length + 1)
    0 a.length 0 b.length (by omega) (by omega) (by omega)
  have hmerge := mergeAux_spec a b a.length b.length
    (matchingBlocksRec a b (a.length + b.length + 1) 0 a.length 0 b.length) 0 0 0 []
    (fun blk hb => by
      have := hraw blk hb
      exact ⟨this.2.2.2.2.1, this.2.1, this.2.2.2.1, this.2.2.2.2.2⟩)
    hrawp (fun h => absurd rfl h) (matchRun_zero a b 0 0)
    (fun blk _ => ⟨Nat.zero_le _, Nat.zero_le _⟩)
    (fun blk hb => absurd hb (List.not_mem_nil blk))
    List.Pairwise.nil
    (fun blk hb => absurd hb (List.not_mem_nil blk))
  have hM1 : ∀ blk ∈ mergeAdjacent (matchingBlocksRec a b (a.length + b.length + 1)
      0 a.length 0 b.length), blk.2.2 ≠ 0 ∧ blk.1 + blk.2.2 ≤ a.length ∧
      blk.2.1 + blk.2.2 ≤ b.length ∧ MatchRun a b blk.1 blk.2.1 blk.2.2 := hmerge.1
  have hM2 : (mergeAdjacent (matchingBlocksRec a b (a.length + b.length + 1)
      0 a.length 0 b.length)).Pairwise SepBlocks := hmerge.2
  have hfullpw : (get_matching_blocks a b).Pairwise SepBlocks := by
    unfold get_matching_blocks
    rw [List.pairwise_append]
    refine ⟨hM2, List.pairwise_singleton _ _, ?_⟩
    intro x hx y hy
    have hym : y = (a.length, b.length, 0) := by simpa using hy
    subst hym
    have := hM1 x hx
    refine ⟨?_, ?_⟩
    · show x.1 + x.2.2 ≤ a.length
      omega
    · show x.2.1 + x.2.2 ≤ b.length
      omega
  refine ⟨?_, ?_, ?_, ?_⟩
  · intro blk hb
    unfold get_matching_blocks at hb
    rcases List.mem_append.1 hb with hb1 | hb2
    · exact (hM1 blk hb1).2.2.2
    · have : blk = (a.length, b.length, 0) := by simpa using hb2
      subst this
      exact matchRun_zero a b _ _
  · exact chainBlocks_of_pairwise _ 0 0 hfullpw
      (fun blk _ => ⟨Nat.zero_le _, Nat.zero_le _⟩)
  · unfold get_matching_blocks
    rw [endA_append]
    show endA (a.length + 0) [] = a.length
    simp [endA]
  · unfold get_matching_blocks
    rw [endB_append]
    show endB (b.length + 0) [] = b.length
    simp [endB]

/-- C6: concatenating, in opcode order, the `a`-side slices of all opcodes —
the records' `original_lines` interleaved with the unchanged (`equal`) spans —
reconstructs the original line sequence, and symmetrically for the `b` side;
`equal` spans really are unchanged, and the extractor's records are exactly
the non-`equal` opcodes with these slices. -/
theorem c6_roundtrip (aT bT : String) :
    (((get_opcodes (pySplitlines aT) (pySplitlines bT)).map
        fun op => listSlice (pySplitlines aT) op.i1 op.i2).flatten = pySplitlines aT) ∧
    (((get_opcodes (pySplitlines aT) (pySplitlines bT)).map
        fun op => listSlice (pySplitlines bT) op.j1 op.j2).flatten = pySplitlines bT) ∧
    (∀ op ∈ get_opcodes (pySplitlines aT) (pySplitlines bT), op.tag = .equal →
      listSlice (pySplitlines aT) op.i1 op.i2 = listSlice (pySplitlines bT) op.j1 op.j2) ∧
    extract_text_diffs aT bT =
      (get_opcodes (pySplitlines aT) (pySplitlines bT)).filterMap
        (opcodeRecord (pySplitlines aT) (pySplitlines bT)) := by
  obtain ⟨hruns, hchain, hA, hB⟩ := get_matching_blocks_spec (pySplitlines aT) (pySplitlines bT)
  have hjoin := opcodesAux_join (pySplitlines aT) (pySplitlines bT)
    (get_matching_blocks (pySplitlines aT) (pySplitlines bT)) 0 0 hchain
  refine ⟨?_, ?_, ?_, rfl⟩
  · have h1 := hjoin.1
    rw [hA] at h1
    rw [listSlice_full] at h1
    exact h1
  · have h2 := hjoin.2
    rw [hB] at h2
    rw [listSlice_full] at h2
    exact h2
  · exact opcodesAux_equal_spec (pySplitlines aT) (pySplitlines bT)
      (get_matching_blocks (pySplitlines aT) (pySplitlines bT)) 0 0 hruns

/-- C6 witness: at a concrete pair, the `a`-side slices of the opcodes
re-concatenate to the original lines, and a concrete `equal` opcode has equal
slices. -/
theorem c6_roundtrip_witness :
    (((get_opcodes (pySplitlines "A\nB\nC") (pySplitlines "A\nX\nC")).map
        fun op => listSlice (pySplitlines "A\nB\nC") op.i1 op.i2).flatten
      = pySplitlines "A\nB\nC") ∧
    listSlice (pySplitlines "A\nB\nC") 0 1 = listSlice (pySplitlines "A\nX\nC") 0 1 :=
  ⟨(c6_roundtrip "A\nB\nC" "A\nX\nC").1,
   (c6_roundtrip "A\nB\nC" "A\nX\nC").2.2.1 ⟨.equal, 0, 1, 0, 1⟩ (by decide) rfl⟩

/-! ### Empty-side behaviour of the extractor (C5) -/

set_option maxHeartbeats 1000000 in
/-- The splitlines worker returns at least one line unless both the input and
the accumulator are exhausted. -/
theorem pySplitlinesAux_ne_nil : ∀ (cs acc : List Char), ¬(cs = [] ∧ acc = []) →
    pySplitlinesAux cs acc ≠ [] := by
  intro cs acc
  induction cs, acc using pySplitlinesAux.induct with
  | case1 => intro h; exact absurd ⟨rfl, rfl⟩ h
  | case2 acc hne =>
    intro h
    cases acc with
    | nil => exact absurd rfl hne
    | cons c a => simp [pySplitlinesAux]
  | case3 rest acc ih => intro h; simp [pySplitlinesAux]
  | case4 c rest acc hpat hbr ih =>
    intro h
    rw [pySplitlinesAux.eq_def]
    split
    all_goals simp_all
  | case5 c rest acc hpat hbr ih =>
    intro h
    rw [pySplitlinesAux.eq_def]
    split
    all_goals simp_all

/-- A non-empty text has at least one line. -/
theorem pySplitlines_ne_nil (t : String) (h : t ≠ "") : pySplitlines t ≠ [] := by
  apply pySplitlinesAux_ne_nil
  rintro ⟨h1, -⟩
  apply h
  cases t with
  | mk data =>
    simp only [String.data] at h1
    rw [h1]

/-- With an empty right-hand sequence the main loop never moves the best
match off the `(0, 0, 0)` sentinel. -/
theorem flmFold_nil_right (a : List String) (blo bhi : Nat) :
    ∀ (L : List Nat) (st : FLMState),
      (L.foldl (flmStep a [] blo bhi) st).besti = st.besti ∧
      (L.foldl (flmStep a [] blo bhi) st).bestj = st.bestj ∧
      (L.foldl (flmStep a [] blo bhi) st).bestsize = st.bestsize := by
  intro L
  induction L with
  | nil => intro st; exact ⟨rfl, rfl, rfl⟩
  | cons i L ih =>
    intro st
    have hstep : flmStep a [] blo bhi st i =
        ⟨fun _ => 0, st.besti, st.bestj, st.bestsize⟩ := by
      unfold flmStep
      cases hx : a[i]? with
      | none => rfl
      | some x => rfl
    rw [List.foldl_cons, hstep]
    exact ih _

/-- The forward extension loop is stuck when its guard fails. -/
theorem extendForwardAux_stuck (a b : List String) (ahi bhi bi bj : Nat) (gas k : Nat)
    (h : ¬(bi + k < ahi ∧ bj + k < bhi ∧ a[bi + k]? = b[bj + k]? ∧ (a[bi + k]?).isSome)) :
    extendForwardAux a b ahi bhi bi bj gas k = k := by
  cases gas with
  | zero => rfl
  | succ g => rw [extendForwardAux, if_neg h]

/-- Opcodes of comparing the empty line list against `bl`: one `insert`
spanning all of `bl`. -/
theorem get_opcodes_nil_left (bl : List String) (h : bl ≠ []) :
    get_opcodes [] bl = [⟨.insert, 0, 0, 0, bl.length⟩] := by
  cases bl with
  | nil => exact absurd rfl h
  | cons hd tlb =>
    have h1 : get_matching_blocks [] (hd :: tlb) = [(0, (hd :: tlb).length, 0)] := rfl
    show opcodesAux 0 0 (get_matching_blocks [] (hd :: tlb)) = _
    rw [h1]
    show (if (0 : Nat) < 0 ∧ (0 : Nat) < (hd :: tlb).length then
          [(⟨.replace, 0, 0, 0, (hd :: tlb).length⟩ : Opcode)]
        else if (0 : Nat) < 0 then [⟨.delete, 0, 0, 0, (hd :: tlb).length⟩]
        else if (0 : Nat) < (hd :: tlb).length then [⟨.insert, 0, 0, 0, (hd :: tlb).length⟩]
        else [])
        ++ (if (0 : Nat) ≠ 0 then [⟨.equal, 0, 0 + 0, (hd :: tlb).length,
              (hd :: tlb).length + 0⟩] else [])
        ++ opcodesAux (0 + 0) ((hd :: tlb).length + 0) [] = _
    simp [opcodesAux]

/-- The state after the main loop when the right-hand sequence is empty. -/
theorem flmMain_nil_right (a : List String) (ahi : Nat) :
    (flmMain a [] 0 ahi 0 0).besti = 0 ∧ (flmMain a [] 0 ahi 0 0).bestj = 0 ∧
    (flmMain a [] 0 ahi 0 0).bestsize = 0 := by
  unfold flmMain
  exact flmFold_nil_right a 0 0 _ _

/-- `find_longest_match` finds nothing against the empty sequence. -/
theorem find_longest_match_nil_right (a : List String) (ahi : Nat) :
    find_longest_match a [] 0 ahi 0 0 = (0, 0, 0) := by
  obtain ⟨h1, h2, h3⟩ := flmMain_nil_right a ahi
  have hfwd : extendForward a [] ahi 0 0 0 0 = 0 := by
    unfold extendForward
    apply extendForwardAux_stuck
    rintro ⟨-, hlt, -⟩
    exact absurd hlt (by omega)
  simp only [find_longest_match]
  rw [h1, h2, h3, extendBackward_stuck]
  simp [hfwd]

/-- Opcodes of comparing `al` against the empty line list: one `delete`
spanning all of `al`. -/
theorem get_opcodes_nil_right (al : List String) (h : al ≠ []) :
    get_opcodes al [] = [⟨.delete, 0, al.length, 0, 0⟩] := by
  cases al with
  | nil => exact absurd rfl h
  | cons hd tla =>
    have h1 : matchingBlocksRec (hd :: tla) [] ((hd :: tla).length + 0 + 1)
        0 (hd :: tla).length 0 0 = [] := by
      rw [matchingBlocksRec]
      rw [find_longest_match_nil_right]
      rfl
    have h2 : get_matching_blocks (hd :: tla) [] = [((hd :: tla).length, 0, 0)] := by
      unfold get_matching_blocks
      simp only [List.length_nil]
      rw [h1]
      rfl
    show opcodesAux 0 0 (get_matching_blocks (hd :: tla) []) = _
    rw [h2]
    show (if (0 : Nat) < (hd :: tla).length ∧ (0 : Nat) < 0 then
          [(⟨.replace, 0, (hd :: tla).length, 0, 0⟩ : Opcode)]
        else if (0 : Nat) < (hd :: tla).length then [⟨.delete, 0, (hd :: tla).length, 0, 0⟩]
        else if (0 : Nat) < 0 then [⟨.insert, 0, (hd :: tla).length, 0, 0⟩]
        else [])
        ++ (if (0 : Nat) ≠ 0 then [⟨.equal, (hd :: tla).length, (hd :: tla).length + 0, 0,
              0 + 0⟩] else [])
        ++ opcodesAux ((hd :: tla).length + 0) (0 + 0) [] = _
    simp [opcodesAux]

/-- C5: both inputs empty yields no records; an empty original with a
non-empty modified text yields exactly one `insert` record spanning all lines
of the modified text, and symmetrically one `delete` record when the modified
text is empty. -/
theorem c5_empty_inputs (t : String) :
    extract_text_diffs "" "" = [] ∧
    (t ≠ "" →
      extract_text_diffs "" t =
        [⟨.insert, [], pySplitlines t, (1, 0), (1, (pySplitlines t).length)⟩] ∧
      extract_text_diffs t "" =
        [⟨.delete, pySplitlines t, [], (1, (pySplitlines t).length), (1, 0)⟩]) := by
  refine ⟨rfl, fun ht => ⟨?_, ?_⟩⟩
  · have hbl := pySplitlines_ne_nil t ht
    show ((get_opcodes (pySplitlines "") (pySplitlines t)).filterMap
      (opcodeRecord (pySplitlines "") (pySplitlines t))) = _
    have h0 : pySplitlines "" = ([] : List String) := rfl
    rw [h0, get_opcodes_nil_left (pySplitlines t) hbl]
    simp [opcodeRecord, listSlice_self, listSlice_full]
  · have hal := pySplitlines_ne_nil t ht
    show ((get_opcodes (pySplitlines t) (pySplitlines "")).filterMap
      (opcodeRecord (pySplitlines t) (pySplitlines ""))) = _
    have h0 : pySplitlines "" = ([] : List String) := rfl
    rw [h0, get_opcodes_nil_right (pySplitlines t) hal]
    simp [opcodeRecord, listSlice_self, listSlice_full]

/-- C5 witness: concrete empty-side runs. -/
theorem c5_empty_inputs_witness :
    extract_text_diffs "" "" = [] ∧
    extract_text_diffs "" "x\ny" =
      [⟨.insert, [], ["x", "y"], (1, 0), (1, 2)⟩] ∧
    extract_text_diffs "x\ny" "" =
      [⟨.delete, ["x", "y"], [], (1, 2), (1, 0)⟩] := by
  refine ⟨(c5_empty_inputs "x\ny").1, ?_, ?_⟩
  · have h := ((c5_empty_inputs "x\ny").2 (by decide)).1
    rw [h]
    rfl
  · have h := ((c5_empty_inputs "x\ny").2 (by decide)).2
    rw [h]
    rfl

/-! ### Self-comparison: the main loop only ever finds diagonal matches (C4) -/

/-- A listed position is kept. -/
theorem keepAtB_of_mem {l : List String} {x : String} {j : Nat} (h : j ∈ b2j l x) :
    keepAtB l j = true := by
  have hsome := b2j_mem_some h
  unfold keepAtB
  rw [hsome]
  exact decide_eq_true h

/-- A kept position is listed for its own element. -/
theorem mem_of_keepAtB {l : List String} {i : Nat} {x : String}
    (hk : keepAtB l i = true) (hx : l[i]? = some x) : i ∈ b2j l x := by
  unfold keepAtB at hk
  rw [hx] at hk
  exact of_decide_eq_true hk

/-- Whether a position is kept only depends on its element. -/
theorem keepAtB_of_mem_elem {l : List String} {x : String} {i j : Nat}
    (hj : j ∈ b2j l x) (hi : l[i]? = some x) : keepAtB l i = true :=
  keepAtB_of_mem (b2j_mem_of_getElem hj hi)

/-- A kept position is in range. -/
theorem keepAtB_isSome {l : List String} {j : Nat} (h : keepAtB l j = true) :
    (l[j]?).isSome := by
  unfold keepAtB at h
  cases hx : l[j]? with
  | none => rw [hx] at h; exact absurd h (by simp)
  | some x => rfl

/-- `dChain` at a kept position. -/
theorem dChain_pos {l : List String} {i : Nat} (h : keepAtB l i = true) :
    dChain l i = (if i = 0 then 1 else dChain l (i - 1) + 1) := by
  cases i with
  | zero => simp [dChain, h]
  | succ n => simp [dChain, h]

/-- `dChain` at a dropped position. -/
theorem dChain_zero {l : List String} {i : Nat} (h : ¬keepAtB l i = true) :
    dChain l i = 0 := by
  cases i with
  | zero => simp [dChain, h]
  | succ n => simp [dChain, h]

/-- Unfolding equations for `cChain`. -/
theorem cChain_eq (l : List String) (i j : Nat) :
    cChain l i j =
      (if (decide (l[i]? = l[j]?) && (l[i]?).isSome && keepAtB l j) then
        (if i = 0 ∨ j = 0 then 1 else cChain l (i - 1) (j - 1) + 1)
      else 0) := by
  cases i with
  | zero =>
    have h0 : cChain l 0 j =
        if (decide (l[0]? = l[j]?) && (l[0]?).isSome && keepAtB l j) then 1 else 0 := rfl
    rw [h0]
    by_cases hc : (decide (l[0]? = l[j]?) && (l[0]?).isSome && keepAtB l j) = true
    · rw [if_pos hc, if_pos hc, if_pos (Or.inl rfl)]
    · rw [if_neg hc, if_neg hc]
  | succ n =>
    cases j with
    | zero =>
      have h0 : cChain l (n + 1) 0 =
          if (decide (l[n + 1]? = l[0]?) && (l[n + 1]?).isSome && keepAtB l 0) then 1
          else 0 := rfl
      rw [h0]
      by_cases hc : (decide (l[n + 1]? = l[0]?) && (l[n + 1]?).isSome && keepAtB l 0) = true
      · rw [if_pos hc, if_pos hc, if_pos (Or.inr rfl)]
      · rw [if_neg hc, if_neg hc]
    | succ m =>
      have h0 : cChain l (n + 1) (m + 1) =
          if (decide (l[n + 1]? = l[m + 1]?) && (l[n + 1]?).isSome && keepAtB l (m + 1)) then
            cChain l n m + 1
          else 0 := rfl
      rw [h0]
      by_cases hc : (decide (l[n + 1]? = l[m + 1]?) && (l[n + 1]?).isSome &&
          keepAtB l (m + 1)) = true
      · rw [if_pos hc, if_pos hc, if_neg (by omega : ¬(n + 1 = 0 ∨ m + 1 = 0))]
        have e1 : n + 1 - 1 = n := by omega
        have e2 : m + 1 - 1 = m := by omega
        rw [e1, e2]
      · rw [if_neg hc, if_neg hc]

/-- The components of a true cell condition. -/
theorem cond_parts {l : List String} {i j : Nat}
    (hc : (decide (l[i]? = l[j]?) && (l[i]?).isSome && keepAtB l j) = true) :
    l[i]? = l[j]? ∧ (l[i]?).isSome ∧ keepAtB l j = true := by
  simp only [Bool.and_eq_true, decide_eq_true_eq] at hc
  exact ⟨hc.1.1, hc.1.2, hc.2⟩

/-- A chain ending at `(i, j)` is bounded by the kept run ending at `j`. -/
theorem cChain_le_dChain_right (l : List String) :
    ∀ i j, cChain l i j ≤ dChain l j := by
  intro i
  induction i with
  | zero =>
    intro j
    rw [cChain_eq]
    by_cases hc : (decide (l[0]? = l[j]?) && (l[0]?).isSome && keepAtB l j) = true
    · rw [if_pos hc, if_pos (Or.inl rfl), dChain_pos (cond_parts hc).2.2]
      split <;> omega
    · rw [if_neg hc]
      exact Nat.zero_le _
  | succ n ih =>
    intro j
    rw [cChain_eq]
    by_cases hc : (decide (l[n + 1]? = l[j]?) && (l[n + 1]?).isSome && keepAtB l j) = true
    · rw [if_pos hc, dChain_pos (cond_parts hc).2.2]
      by_cases hj : j = 0
      · rw [if_pos (Or.inr hj), if_pos hj]
      · rw [if_neg (by omega : ¬(n + 1 = 0 ∨ j = 0)), if_neg hj]
        have e : n + 1 - 1 = n := by omega
        rw [e]
        have := ih (j - 1)
        omega
    · rw [if_neg hc]
      exact Nat.zero_le _

/-- A chain ending at `(i, j)` is bounded by the kept run ending at `i`:
each matched pair carries the same element, so keeping transfers from the
`j` side to the `i` side. -/
theorem cChain_le_dChain_left (l : List String) :
    ∀ i j, cChain l i j ≤ dChain l i := by
  intro i
  induction i with
  | zero =>
    intro j
    rw [cChain_eq]
    by_cases hc : (decide (l[0]? = l[j]?) && (l[0]?).isSome && keepAtB l j) = true
    · obtain ⟨heq, hsome, hk⟩ := cond_parts hc
      obtain ⟨x, hx⟩ := Option.isSome_iff_exists.1 hsome
      have hjx : l[j]? = some x := heq.symm.trans hx
      have hk0 : keepAtB l 0 = true := keepAtB_of_mem_elem (mem_of_keepAtB hk hjx) hx
      rw [if_pos hc, if_pos (Or.inl rfl), dChain_pos hk0, if_pos rfl]
    · rw [if_neg hc]
      exact Nat.zero_le _
  | succ n ih =>
    intro j
    rw [cChain_eq]
    by_cases hc : (decide (l[n + 1]? = l[j]?) && (l[n + 1]?).isSome && keepAtB l j) = true
    · obtain ⟨heq, hsome, hk⟩ := cond_parts hc
      obtain ⟨x, hx⟩ := Option.isSome_iff_exists.1 hsome
      have hjx : l[j]? = some x := heq.symm.trans hx
      have hki : keepAtB l (n + 1) = true := keepAtB_of_mem_elem (mem_of_keepAtB hk hjx) hx
      rw [if_pos hc, dChain_pos hki, if_neg (by omega : ¬(n + 1 = 0))]
      have e : n + 1 - 1 = n := by omega
      rw [e]
      by_cases hj : j = 0
      · rw [if_pos (Or.inr hj)]
        omega
      · rw [if_neg (by omega : ¬(n + 1 = 0 ∨ j = 0))]
        have := ih (j - 1)
        omega
    · rw [if_neg hc]
      exact Nat.zero_le _

/-- On the diagonal the chain equals the kept run. -/
theorem cChain_diag (l : List String) : ∀ i, cChain l i i = dChain l i := by
  intro i
  induction i with
  | zero =>
    rw [cChain_eq]
    by_cases hk : keepAtB l 0 = true
    · have hsome := keepAtB_isSome hk
      rw [if_pos (by simp [hsome, hk]), if_pos (Or.inl rfl), dChain_pos hk, if_pos rfl]
    · rw [if_neg (by simp [hk]), dChain_zero hk]
  | succ n ih =>
    rw [cChain_eq]
    by_cases hk : keepAtB l (n + 1) = true
    · have hsome := keepAtB_isSome hk
      rw [if_pos (by simp [hsome, hk]), if_neg (by omega : ¬(n + 1 = 0 ∨ n + 1 = 0)),
        dChain_pos hk, if_neg (by omega : ¬(n + 1 = 0))]
      have e : n + 1 - 1 = n := by omega
      rw [e, ih]
    · rw [if_neg (by simp [hk]), dChain_zero hk]

/-- Comparing `l` with itself, processing one position list never moves the
best match off the diagonal: candidate chains at `(i, j)` with `j < i` are
dominated by the kept run at `j` (already below the best), candidates with
`j > i` are dominated by the kept run at `i` (already below the best because
the diagonal position `i` is listed and processed first), and the diagonal
candidate equals the kept run at `i`. -/
theorem flmInner_diag (l : List String) (i : Nat) (x : String) (g : Nat → Nat)
    (hx : l[i]? = some x)
    (hg0 : i = 0 → ∀ t, g t = 0)
    (hgle : 0 < i → ∀ t, g t ≤ cChain l (i - 1) t)
    (hgdiag : 0 < i → g (i - 1) = dChain l (i - 1)) :
    ∀ (js : List Nat) (new : Nat → Nat) (bi bj k : Nat),
      js.Pairwise (· < ·) →
      (∀ j ∈ js, j ∈ b2j l x) →
      bi = bj →
      (∀ t, t < i → dChain l t ≤ k) →
      (∀ t, new t ≤ cChain l i t) →
      ((i ∈ js) ∨ (dChain l i ≤ k ∧ new i = dChain l i)) →
      (flmInner 0 l.length i g js new bi bj k).besti
        = (flmInner 0 l.length i g js new bi bj k).bestj ∧
      (∀ t, t ≤ i → dChain l t ≤ (flmInner 0 l.length i g js new bi bj k).bestsize) ∧
      (∀ t, (flmInner 0 l.length i g js new bi bj k).j2len t ≤ cChain l i t) ∧
      (flmInner 0 l.length i g js new bi bj k).j2len i = dChain l i ∧
      k ≤ (flmInner 0 l.length i g js new bi bj k).bestsize := by
  intro js
  induction js with
  | nil =>
    intro new bi bj k _ _ hdiag hlow hrow hdisj
    simp only [flmInner]
    rcases hdisj with hmem | ⟨hdi, hni⟩
    · exact absurd hmem (List.not_mem_nil i)
    · refine ⟨hdiag, ?_, hrow, hni, Nat.le_refl _⟩
      intro t ht
      rcases Nat.lt_or_ge t i with h | h
      · exact hlow t h
      · have : t = i := by omega
        subst this
        exact hdi
  | cons j rest ih =>
    intro new bi bj k hsort hmem hdiag hlow hrow hdisj
    have hjmem : j ∈ b2j l x := hmem j (List.mem_cons_self _ _)
    have hjx : l[j]? = some x := b2j_mem_some hjmem
    have hjlt : j < l.length := by
      rcases List.getElem?_eq_some.1 hjx with ⟨hlt, -⟩
      exact hlt
    have hkeepj : keepAtB l j = true := keepAtB_of_mem hjmem
    have hcond : (decide (l[i]? = l[j]?) && (l[i]?).isSome && keepAtB l j) = true := by
      rw [hx, hjx]
      simp [hkeepj]
    have hkeepi : keepAtB l i = true := keepAtB_of_mem_elem hjmem hx
    have hkc_le : (if j = 0 then 0 else g (j - 1)) + 1 ≤ cChain l i j := by
      rw [cChain_eq l i j, if_pos hcond]
      by_cases hj0 : j = 0
      · rw [if_pos (Or.inr hj0), if_pos hj0]
      · rw [if_neg hj0]
        by_cases hi0 : i = 0
        · rw [if_pos (Or.inl hi0), hg0 hi0 (j - 1)]
        · rw [if_neg (by omega : ¬(i = 0 ∨ j = 0))]
          have := hgle (by omega) (j - 1)
          omega
    have hkc_dj : (if j = 0 then 0 else g (j - 1)) + 1 ≤ dChain l j :=
      Nat.le_trans hkc_le (cChain_le_dChain_right l i j)
    have hkc_di : (if j = 0 then 0 else g (j - 1)) + 1 ≤ dChain l i :=
      Nat.le_trans hkc_le (cChain_le_dChain_left l i j)
    have hkc_diag : j = i → (if j = 0 then 0 else g (j - 1)) + 1 = dChain l i := by
      intro hji
      by_cases hj0 : j = 0
      · rw [if_pos hj0]
        rw [dChain_pos hkeepi, if_pos (by omega)]
      · rw [if_neg hj0]
        rw [dChain_pos hkeepi, if_neg (by omega)]
        have := hgdiag (by omega)
        rw [← hji] at this ⊢
        rw [this]
    have happ : ∀ t : Nat,
        (fun t => if t = j then (if j = 0 then 0 else g (j - 1)) + 1 else new t) t
          = if t = j then (if j = 0 then 0 else g (j - 1)) + 1 else new t :=
      fun _ => rfl
    have hrow' : ∀ t,
        (fun t => if t = j then (if j = 0 then 0 else g (j - 1)) + 1 else new t) t
          ≤ cChain l i t := by
      intro t
      rw [happ t]
      by_cases htj : t = j
      · rw [if_pos htj, htj]
        exact hkc_le
      · rw [if_neg htj]
        exact hrow t
    have hmem' : ∀ t ∈ rest, t ∈ b2j l x := fun t ht => hmem t (List.mem_cons_of_mem _ ht)
    have hsort' : rest.Pairwise (· < ·) := (List.pairwise_cons.1 hsort).2
    have hgtrest : ∀ t ∈ rest, j < t := (List.pairwise_cons.1 hsort).1
    simp only [flmInner]
    rw [if_neg (Nat.not_lt_zero j), if_neg (Nat.not_le.2 hjlt)]
    rcases Nat.lt_trichotomy j i with hji | hji | hji
    · -- j < i: dominated by the kept run at j, no update
      have hnolt : ¬(k < (if j = 0 then 0 else g (j - 1)) + 1) := by
        have := hlow j hji
        omega
      rw [if_neg hnolt]
      refine ih _ _ _ _ hsort' hmem' hdiag hlow hrow' ?_
      rcases hdisj with hin | ⟨hdi, hni⟩
      · rcases List.mem_cons.1 hin with h | h
        · omega
        · exact Or.inl h
      · refine Or.inr ⟨hdi, ?_⟩
        rw [if_neg (by omega : ¬i = j)]
        exact hni
    · -- j = i: the diagonal candidate
      by_cases hklt : k < (if j = 0 then 0 else g (j - 1)) + 1
      · rw [if_pos hklt]
        have hpost := ih (fun t => if t = j then (if j = 0 then 0 else g (j - 1)) + 1
            else new t)
          (i + 1 - ((if j = 0 then 0 else g (j - 1)) + 1))
          (j + 1 - ((if j = 0 then 0 else g (j - 1)) + 1))
          ((if j = 0 then 0 else g (j - 1)) + 1)
          hsort' hmem' (by rw [hji]) (fun t ht => by have := hlow t ht; omega) hrow' ?_
        · exact ⟨hpost.1, hpost.2.1, hpost.2.2.1, hpost.2.2.2.1,
            Nat.le_trans (Nat.le_of_lt hklt) hpost.2.2.2.2⟩
        · refine Or.inr ⟨by rw [← hkc_diag hji], ?_⟩
          rw [happ i, if_pos hji.symm, hkc_diag hji]
      · rw [if_neg hklt]
        refine ih _ _ _ _ hsort' hmem' hdiag hlow hrow' ?_
        refine Or.inr ⟨?_, ?_⟩
        · rw [← hkc_diag hji]
          omega
        · rw [if_pos hji.symm, hkc_diag hji]
    · -- j > i: dominated by the kept run at i, already below the best
      have hdright : dChain l i ≤ k ∧ new i = dChain l i := by
        rcases hdisj with hin | h
        · rcases List.mem_cons.1 hin with h | h
          · omega
          · have := hgtrest i h
            omega
        · exact h
      have hnolt : ¬(k < (if j = 0 then 0 else g (j - 1)) + 1) := by
        have := hdright.1
        omega
      rw [if_neg hnolt]
      refine ih _ _ _ _ hsort' hmem' hdiag hlow hrow' ?_
      refine Or.inr ⟨hdright.1, ?_⟩
      rw [if_neg (by omega : ¬i = j)]
      exact hdright.2

/-- One outer step preserves the diagonal invariant on self-comparison. -/
theorem flmStep_diag (l : List String) (i : Nat) (st : FLMState)
    (h1 : st.besti = st.bestj)
    (h2 : ∀ t, t < i → dChain l t ≤ st.bestsize)
    (h3 : i = 0 → ∀ t, st.j2len t = 0)
    (h4 : 0 < i → ∀ t, st.j2len t ≤ cChain l (i - 1) t)
    (h5 : 0 < i → st.j2len (i - 1) = dChain l (i - 1)) :
    (flmStep l l 0 l.length st i).besti = (flmStep l l 0 l.length st i).bestj ∧
    (∀ t, t < i + 1 → dChain l t ≤ (flmStep l l 0 l.length st i).bestsize) ∧
    (∀ t, (flmStep l l 0 l.length st i).j2len t ≤ cChain l i t) ∧
    (flmStep l l 0 l.length st i).j2len i = dChain l i := by
  cases hx : l[i]? with
  | none =>
    have hdef : flmStep l l 0 l.length st i =
        flmInner 0 l.length i st.j2len [] (fun _ => 0) st.besti st.bestj st.bestsize := by
      unfold flmStep
      rw [hx]
    have hkeep : ¬keepAtB l i = true := by
      unfold keepAtB
      rw [hx]
      simp
    have hd0 : dChain l i = 0 := dChain_zero hkeep
    rw [hdef]
    simp only [flmInner]
    refine ⟨h1, ?_, fun t => Nat.zero_le _, hd0.symm⟩
    intro t ht
    rcases Nat.lt_or_ge t i with h | h
    · exact h2 t h
    · have : t = i := by omega
      subst this
      rw [hd0]
      exact Nat.zero_le _
  | some x =>
    have hdef : flmStep l l 0 l.length st i =
        flmInner 0 l.length i st.j2len (b2j l x) (fun _ => 0) st.besti st.bestj st.bestsize := by
      unfold flmStep
      rw [hx]
    have hdisj : (i ∈ b2j l x) ∨
        (dChain l i ≤ st.bestsize ∧ (fun _ : Nat => (0 : Nat)) i = dChain l i) := by
      by_cases hk : keepAtB l i = true
      · exact Or.inl (mem_of_keepAtB hk hx)
      · refine Or.inr ⟨?_, ?_⟩
        · rw [dChain_zero hk]
          exact Nat.zero_le _
        · rw [dChain_zero hk]
    have hpost := flmInner_diag l i x st.j2len hx h3 h4 h5 (b2j l x) (fun _ => 0)
      st.besti st.bestj st.bestsize (b2j_sorted l x) (fun _ h => h) h1 h2
      (fun t => Nat.zero_le _) hdisj
    rw [hdef]
    refine ⟨hpost.1, ?_, hpost.2.2.1, hpost.2.2.2.1⟩
    intro t ht
    exact hpost.2.1 t (by omega)

/-- The diagonal invariant survives the whole outer loop. -/
theorem flmFold_diag (l : List String) :
    ∀ (n i : Nat) (st : FLMState),
      st.besti = st.bestj →
      (∀ t, t < i → dChain l t ≤ st.bestsize) →
      (i = 0 → ∀ t, st.j2len t = 0) →
      (0 < i → ∀ t, st.j2len t ≤ cChain l (i - 1) t) →
      (0 < i → st.j2len (i - 1) = dChain l (i - 1)) →
      ((List.range' i n).foldl (flmStep l l 0 l.length) st).besti
        = ((List.range' i n).foldl (flmStep l l 0 l.length) st).bestj := by
  intro n
  induction n with
  | zero => intro i st h1 _ _ _ _; simpa using h1
  | succ m ih =>
    intro i st h1 h2 h3 h4 h5
    rw [List.range'_succ]
    simp only [List.foldl_cons]
    obtain ⟨g1, g2, g3, g4⟩ := flmStep_diag l i st h1 h2 h3 h4 h5
    refine ih (i + 1) _ g1 g2 (fun h => absurd h (by omega)) ?_ ?_
    · intro _ t
      rw [Nat.add_sub_cancel]
      exact g3 t
    · intro _
      rw [Nat.add_sub_cancel]
      exact g4

/-- On self-comparison the main loop ends with a diagonal best match. -/
theorem flmMain_self_diag (l : List String) :
    (flmMain l l 0 l.length 0 l.length).besti
      = (flmMain l l 0 l.length 0 l.length).bestj := by
  unfold flmMain
  exact flmFold_diag l (l.length - 0) 0 ⟨fun _ => 0, 0, 0, 0⟩ rfl
    (fun t ht => absurd ht (by omega)) (fun _ _ => rfl)
    (fun h => absurd h (by omega)) (fun h => absurd h (by omega))

/-- Backward extension of a diagonal match on self-comparison runs all the
way to the start. -/
theorem extendBackward_self (l : List String) :
    ∀ bi k, bi ≤ l.length → extendBackward l l 0 0 bi bi k = (0, 0, bi + k) := by
  intro bi
  induction bi with
  | zero =>
    intro k _
    show ((0 : Nat), (0 : Nat), k) = (0, 0, 0 + k)
    rw [Nat.zero_add]
  | succ n ihn =>
    intro k h
    rw [extendBackward]
    have hc : 0 < n + 1 ∧ 0 < n + 1 ∧ l[n]? = l[n + 1 - 1]? ∧ (l[n]?).isSome := by
      refine ⟨Nat.succ_pos n, Nat.succ_pos n, ?_, ?_⟩
      · rw [Nat.add_sub_cancel]
      · rw [List.getElem?_eq_getElem (show n < l.length by omega)]
        rfl
    rw [if_pos hc]
    rw [Nat.add_sub_cancel]
    have hn : n ≤ l.length := by omega
    rw [ihn (k + 1) hn]
    simp only [Prod.mk.injEq]
    exact ⟨trivial, trivial, by omega⟩

/-- Forward extension of a diagonal match on self-comparison runs all the
way to the end. -/
theorem extendForwardAux_self (l : List String) :
    ∀ gas k, gas = l.length - k → k ≤ l.length →
      extendForwardAux l l l.length l.length 0 0 gas k = l.length := by
  intro gas
  induction gas with
  | zero =>
    intro k h1 h2
    have : k = l.length := by omega
    subst this
    rfl
  | succ g ihg =>
    intro k h1 h2
    have hk : k < l.length := by omega
    rw [extendForwardAux]
    rw [if_pos ⟨by omega, by omega, rfl, by
      rw [List.getElem?_eq_getElem (show 0 + k < l.length by omega)]; rfl⟩]
    exact ihg (k + 1) (by omega) (by omega)

/-- On self-comparison `find_longest_match` over the full window returns the
whole diagonal. -/
theorem find_longest_match_self (l : List String) :
    find_longest_match l l 0 l.length 0 l.length = (0, 0, l.length) := by
  have hdiag := flmMain_self_diag l
  obtain ⟨hb1, hb2, hb3, hb4, hb5⟩ :=
    (flmMain_spec l l 0 l.length 0 l.length (Nat.zero_le _)).2
  have hsum : (flmMain l l 0 l.length 0 l.length).besti
      + (flmMain l l 0 l.length 0 l.length).bestsize ≤ l.length := by
    by_cases hz : (flmMain l l 0 l.length 0 l.length).bestsize = 0
    · rw [hz, (hb3 hz).1]
      exact Nat.zero_le _
    · exact (hb4 hz).1
  simp only [find_longest_match]
  rw [← hdiag]
  rw [extendBackward_self l (flmMain l l 0 l.length 0 l.length).besti
    (flmMain l l 0 l.length 0 l.length).bestsize (by omega)]
  show ((0 : Nat), (0 : Nat), extendForward l l l.length l.length 0 0
    ((flmMain l l 0 l.length 0 l.length).besti
      + (flmMain l l 0 l.length 0 l.length).bestsize)) = (0, 0, l.length)
  unfold extendForward
  rw [show (0 + ((flmMain l l 0 l.length 0 l.length).besti
      + (flmMain l l 0 l.length 0 l.length).bestsize))
    = (flmMain l l 0 l.length 0 l.length).besti
      + (flmMain l l 0 l.length 0 l.length).bestsize from by omega]
  rw [extendForwardAux_self l _ _ rfl hsum]

/-- On self-comparison the opcodes are a single `equal` covering everything. -/
theorem get_opcodes_self_cons (hd : String) (tl : List String) :
    get_opcodes (hd :: tl) (hd :: tl) =
      [⟨.equal, 0, (hd :: tl).length, 0, (hd :: tl).length⟩] := by
  have h1 : matchingBlocksRec (hd :: tl) (hd :: tl)
      ((hd :: tl).length + (hd :: tl).length + 1) 0 (hd :: tl).length 0 (hd :: tl).length
      = [(0, 0, (hd :: tl).length)] := by
    simp only [matchingBlocksRec]
    rw [find_longest_match_self (hd :: tl)]
    rw [if_neg (by simp : ¬((0 : Nat), (0 : Nat), (hd :: tl).length).2.2 = 0)]
    rw [if_neg (by simp : ¬((0 : Nat) < ((0 : Nat), (0 : Nat), (hd :: tl).length).1 ∧
      (0 : Nat) < ((0 : Nat), (0 : Nat), (hd :: tl).length).2.1))]
    rw [if_neg (by simp : ¬(((0 : Nat), (0 : Nat), (hd :: tl).length).1 +
        ((0 : Nat), (0 : Nat), (hd :: tl).length).2.2 < (hd :: tl).length ∧
      ((0 : Nat), (0 : Nat), (hd :: tl).length).2.1 +
        ((0 : Nat), (0 : Nat), (hd :: tl).length).2.2 < (hd :: tl).length))]
    simp
  have h2 : get_matching_blocks (hd :: tl) (hd :: tl) =
      [(0, 0, (hd :: tl).length), ((hd :: tl).length, (hd :: tl).length, 0)] := by
    unfold get_matching_blocks mergeAdjacent
    rw [h1]
    rw [mergeAux]
    rw [if_pos ⟨by simp, by simp⟩]
    rw [mergeAux]
    rw [if_pos (by simp : (0 : Nat) + (hd :: tl).length ≠ 0)]
    simp
  unfold get_opcodes
  rw [h2]
  simp [opcodesAux]

/-- C4: running the extractor on two identical texts yields no change
records. -/
theorem c4_identical_texts (t : String) : extract_text_diffs t t = [] := by
  show ((get_opcodes (pySplitlines t) (pySplitlines t)).filterMap
    (opcodeRecord (pySplitlines t) (pySplitlines t))) = []
  cases hl : pySplitlines t with
  | nil => rfl
  | cons hd tl =>
    rw [get_opcodes_self_cons hd tl]
    simp [opcodeRecord]
